import Mathlib

/-!
# Mandelbrot renderer: embedding of `src/mandelbrot.c` and the two old variants

The C program works on `double` and `double complex`.  The embedding takes the
arithmetic over an exact ordered field `K` (the rationals for evaluation, the
reals for the analytic statements); machine integers are naturals or integers
with an explicit reduction modulo `2 ^ 32` or `2 ^ 16` where the C conversion
can wrap.
-/

namespace Mandelbrot

/-! ## Constants of `src/mandelbrot.c` -/

/-- Iteration budget, `#define MAX_TESTS 2000`. -/
def MAX_TESTS : ℕ := 2000

/-- Largest value of an `unsigned short` channel.  The source uses the name
`USHORT_MAX` without defining it; it is taken as `65535`. -/
def USHORT_MAX : ℕ := 65535

/-- Exit code `EXEC_SUCCESS`. -/
def EXEC_SUCCESS : ℤ := 0

/-- Exit code `ARG_ERROR`. -/
def ARG_ERROR : ℤ := -1

/-- Exit code `FILE_ERROR`. -/
def FILE_ERROR : ℤ := -2

/-- Exit code `SIZE_ERROR`. -/
def SIZE_ERROR : ℤ := -3

/-- Exit code `MEM_ERROR`. -/
def MEM_ERROR : ℤ := -4

/-! ## Complex numbers over an exact field (`double complex`) -/

/-- A `double complex` value with exact components. -/
structure cplx (K : Type) where
  re : K
  im : K
deriving DecidableEq

section Evaluator

variable {K : Type} [LinearOrderedField K]

/-- Complex zero, the initial value `x = 0`. -/
def czero : cplx K := ⟨0, 0⟩

/-- Complex addition (`x += c`). -/
def cadd (a b : cplx K) : cplx K := ⟨a.re + b.re, a.im + b.im⟩

/-- Complex multiplication (`x *= x`, `c * conj(c)`). -/
def cmul (a b : cplx K) : cplx K :=
  ⟨a.re * b.re - a.im * b.im, a.re * b.im + a.im * b.re⟩

/-- Function `conj` of `complex.h`. -/
def conj (a : cplx K) : cplx K := ⟨a.re, -a.im⟩

/-- Function `creal` of `complex.h`; also the conversion of a complex value to
`double`, which keeps the real part. -/
def creal (a : cplx K) : K := a.re

/-- Square of `cabs(x)`. -/
def cabs_sq (x : cplx K) : K := x.re * x.re + x.im * x.im

/-- The test `cabs(x) >= 2` of the loop.  Both sides are non-negative, so it is
taken in squared form, `cabs(x)^2 >= 2 * 2`, which needs no square root. -/
def cabs_ge_two (x : cplx K) : Prop := 2 * 2 ≤ cabs_sq x

instance (x : cplx K) : Decidable (cabs_ge_two x) := by
  unfold cabs_ge_two; infer_instance

/-- The quick test of `mandelbrot_test`:
`abs * (8.0 * abs - 3.0) < 3.0 / 32.0 - creal(c)` with `abs = c * conj(c)`. -/
def cardioid_test (c : cplx K) : Prop :=
  creal (cmul c (conj c)) * (8 * creal (cmul c (conj c)) - 3) < 3 / 32 - creal c

instance (c : cplx K) : Decidable (cardioid_test c) := by
  unfold cardioid_test; infer_instance

/-- The `for(i = 1; i < MAX_TESTS; i++)` loop of `mandelbrot_test`: the first
argument counts the iterations that remain, `i` is the loop index and `x` the
current iterate.  Each round performs `x *= x; x += c;` and returns `i` when
`cabs(x) >= 2`; when no round is left the function returns `MAX_TESTS`. -/
def escape_loop (c : cplx K) : ℕ → ℕ → cplx K → ℕ
  | 0, _, _ => MAX_TESTS
  | k + 1, i, x =>
    if cabs_ge_two (cadd (cmul x x) c) then i
    else escape_loop c k (i + 1) (cadd (cmul x x) c)

/-- Function `mandelbrot_test` of `src/mandelbrot.c`. -/
def mandelbrot_test (c : cplx K) : ℕ :=
  if cardioid_test c then MAX_TESTS
  else escape_loop c (MAX_TESTS - 1) 1 czero

/-- The variant of `mandelbrot_test` with the quick test removed: only the
loop runs. -/
def mandelbrot_test_full (c : cplx K) : ℕ :=
  escape_loop c (MAX_TESTS - 1) 1 czero

end Evaluator

/-! ## Integer conversions of C -/

section Conversions

variable {K : Type} [LinearOrderedField K] [FloorRing K]

/-- Conversion of a `double` to an integer type before any range reduction:
the fractional part is discarded (truncation toward zero). -/
def trunc (r : K) : ℤ := if 0 ≤ r then ⌊r⌋ else ⌈r⌉

end Conversions

/-- Reduction of an integer to `short`: 16-bit two's complement wrap.  For a
`double` whose truncation is outside the `short` range the C standard leaves
the conversion undefined; the model takes what the usual compilers produce
(conversion to a wider integer, of which the low 16 bits are kept). -/
def to_short (z : ℤ) : ℤ := (z + 32768) % 65536 - 32768

/-- Reduction of an integer to `unsigned short`: modulo `2 ^ 16`. -/
def to_ushort (z : ℤ) : ℕ := (z % 65536).toNat

/-- Reduction of an integer to `int`: 32-bit two's complement wrap. -/
def to_int (z : ℤ) : ℤ := (z + 2147483648) % 4294967296 - 2147483648

/-- Reduction of an integer to `unsigned int`: modulo `2 ^ 32` (also taken
for a `double` whose truncation is outside the range, which the C standard
leaves undefined). -/
def to_uint (z : ℤ) : ℕ := (z % 4294967296).toNat

/-- Reduction of an integer to `unsigned char`: modulo `2 ^ 8`. -/
def to_uchar (z : ℤ) : ℕ := (z % 256).toNat

/-! ## Colour mapper of `src/mandelbrot.c` -/

/-- The `colour` struct of `src/mandelbrot.c`: three `unsigned short`
channels. -/
structure colour where
  red : ℕ
  green : ℕ
  blue : ℕ
deriving DecidableEq

/-- The `double` expression `USHORT_MAX * log2(iterations) / log2(MAX_TESTS - 1)`
of `rgb_gen`, over the exact reals; `brightness_double` is its value with the
rounding of double arithmetic.  For `iterations <= 0` C yields an infinity
or a NaN, which the model does not represent. -/
noncomputable def brightness_expr (iterations : ℤ) : ℝ :=
  (USHORT_MAX : ℝ) * Real.logb 2 (iterations : ℝ) / Real.logb 2 ((MAX_TESTS - 1 : ℕ) : ℝ)

/-- Function `rgb_gen` of `src/mandelbrot.c` in exact arithmetic
(`rgb_gen_double` takes the double arithmetic as a parameter).  The local
`short brightness` receives the truncated `double` reduced to 16 bits; the
channels receive that `short` converted to `unsigned short`. -/
noncomputable def rgb_gen (iterations : ℤ) : colour :=
  if iterations ≠ (MAX_TESTS : ℤ) then
    { red := to_ushort (to_short (trunc (brightness_expr iterations)))
      green := to_ushort (to_short (trunc (brightness_expr iterations)))
      blue := USHORT_MAX }
  else
    { red := USHORT_MAX, green := USHORT_MAX, blue := USHORT_MAX }

/-! ## Colour mapper of `src/old/mandelbrot.c` -/

namespace Old

/-- Iteration budget of the old variant, `#define MAX_TESTS 1000`. -/
def MAX_TESTS : ℕ := 1000

/-- The `colour` struct of `src/old/mandelbrot.c`: three `unsigned char`
channels. -/
structure colour where
  red : ℕ
  green : ℕ
  blue : ℕ
deriving DecidableEq

/-- The `double` expression `256.0 * log2(iterations) / log2(MAX_TESTS - 1)`. -/
noncomputable def brightness_expr (iterations : ℤ) : ℝ :=
  256 * Real.logb 2 (iterations : ℝ) / Real.logb 2 ((MAX_TESTS - 1 : ℕ) : ℝ)

/-- Function `rgb_gen` of `src/old/mandelbrot.c`: `int brightness` is stored
in `unsigned char` channels. -/
noncomputable def rgb_gen (iterations : ℤ) : colour :=
  if iterations = (MAX_TESTS : ℤ) then
    { red := 0, green := 0, blue := 0 }
  else
    { red := to_uchar (to_int (trunc (brightness_expr iterations)))
      green := to_uchar (to_int (trunc (brightness_expr iterations)))
      blue := 255 }

end Old

/-! ## Colour mapper of `src/old/mandelbrot_parallel.c` -/

namespace OldParallel

/-- Iteration budget of the old parallel variant, `#define MAX_TESTS 1000`. -/
def MAX_TESTS : ℕ := 1000

/-- The `colour` struct of `src/old/mandelbrot_parallel.c`: three
`unsigned char` channels. -/
structure colour where
  red : ℕ
  green : ℕ
  blue : ℕ
deriving DecidableEq

/-- The `double` expression `256.0 * log2(iterations) / log2(MAX_TESTS - 1)`. -/
noncomputable def brightness_expr (iterations : ℤ) : ℝ :=
  256 * Real.logb 2 (iterations : ℝ) / Real.logb 2 ((MAX_TESTS - 1 : ℕ) : ℝ)

/-- Function `rgb_gen` of `src/old/mandelbrot_parallel.c`. -/
noncomputable def rgb_gen (iterations : ℤ) : colour :=
  if iterations = (MAX_TESTS : ℤ) then
    { red := 0, green := 0, blue := 0 }
  else
    { red := to_uchar (to_int (trunc (brightness_expr iterations)))
      green := to_uchar (to_int (trunc (brightness_expr iterations)))
      blue := 255 }

end OldParallel

/-! ## Image descriptor and argument parsing of `src/mandelbrot.c` -/

/-- The `image_meta` struct: `unsigned int` height and width, `double` bounds
and the `char *` file name (`none` is `NULL`). -/
structure image_meta (K : Type) where
  height : ℕ
  width : ℕ
  ymax : K
  ymin : K
  xmax : K
  xmin : K
  file_name : Option String

/-- What one call of `getopt(argc, argv, "h:f:t:b:v:n:")` returns: an option
character of the option string with its `optarg`, or `'?'` with `optopt`. -/
inductive getopt_result where
  | opt (c : Char) (optarg : String)
  | unknown (optopt : Char)

/-- The option characters of the option string `"h:f:t:b:v:n:"`; each takes an
argument. -/
def optstring_chars : List Char := ['h', 'f', 't', 'b', 'v', 'n']

/-- The successive results of `getopt` over the arguments after `argv[0]`, in
the default scanning mode of the GNU C library: an element `--` ends the scan,
an element that is `-` followed by a character is an option, any other
element is a non-option and is skipped.  An option of the option string takes
the rest of its element as argument or, when nothing is left, the next
element; without a next element, and for a character outside the option
string, the result is `'?'`.  The list stops at the first `'?'` because the
caller exits there. -/
def getopt_scan : List String → List getopt_result
  | [] => []
  | a :: rest =>
    match a.data with
    | ['-', '-'] => []
    | '-' :: c :: tail =>
      if c ∈ optstring_chars then
        if tail ≠ [] then getopt_result.opt c (String.mk tail) :: getopt_scan rest
        else
          match rest with
          | [] => [getopt_result.unknown c]
          | b :: rest2 => getopt_result.opt c b :: getopt_scan rest2
      else [getopt_result.unknown c]
    | _ => getopt_scan rest

/-- Function `isspace` of `ctype.h` in the C locale. -/
def isspace (c : Char) : Bool :=
  c = ' ' || (9 ≤ c.toNat && c.toNat ≤ 13)

/-- Function `isdigit` of `ctype.h`. -/
def isdigit (c : Char) : Bool := 48 ≤ c.toNat && c.toNat ≤ 57

/-- Value of a run of decimal digits, continuing from the accumulator. -/
def digits_value : List Char → ℕ → ℕ
  | [], acc => acc
  | d :: ds, acc => digits_value ds (10 * acc + (d.toNat - 48))

/-- The characters left after an optional sign, and whether the sign was a
minus. -/
def strip_sign : List Char → Bool × List Char
  | '-' :: cs => (true, cs)
  | '+' :: cs => (false, cs)
  | cs => (false, cs)

/-- Function `atoi` of `stdlib.h`: leading white space, an optional sign, then
the longest run of decimal digits; the value is reduced to `int`. -/
def atoi (s : String) : ℤ :=
  let p := strip_sign (s.data.dropWhile isspace)
  let v : ℤ := (digits_value (p.2.takeWhile isdigit) 0 : ℕ)
  to_int (if p.1 then -v else v)

/-- The decimal exponent of a floating literal: after `e` or `E`, an optional
sign and at least one digit; `0` when the exponent part is absent. -/
def exponent_value : List Char → ℤ
  | [] => 0
  | e :: cs =>
    if e = 'e' ∨ e = 'E' then
      let p := strip_sign cs
      let v : ℤ := (digits_value (p.2.takeWhile isdigit) 0 : ℕ)
      if p.1 then -v else v
    else 0

/-- Function `atof` of `stdlib.h` on decimal floating literals, with the exact
rational value of the literal as result: leading white space, an optional
sign, digits with an optional fraction, an optional decimal exponent.  A
string without a leading number gives `0`.  The hexadecimal, infinity and NaN
forms that `strtod` also accepts have no counterpart in exact arithmetic and
are read as the decimal literal they start with. -/
def atof (s : String) : ℚ :=
  let p := strip_sign (s.data.dropWhile isspace)
  let ip := p.2.takeWhile isdigit
  let r1 := p.2.dropWhile isdigit
  let fp := match r1 with
    | '.' :: cs => cs.takeWhile isdigit
    | _ => []
  let r2 := match r1 with
    | '.' :: cs => cs.dropWhile isdigit
    | _ => r1
  if ip = [] ∧ fp = [] then 0
  else
    let m : ℚ := (digits_value (ip ++ fp) 0 : ℕ) / (10 : ℚ) ^ fp.length
    let v : ℚ := m * (10 : ℚ) ^ exponent_value r2
    if p.1 then -v else v

section Descriptor

variable {K : Type} [LinearOrderedField K] [FloorRing K]

/-- Conversion of a `double` to `unsigned int`: truncation, then reduction
modulo `2 ^ 32`. -/
def double_to_uint (r : K) : ℕ := to_uint (trunc r)

/-- The initial values `image_meta_gen` gives to the descriptor before it
reads the options. -/
def image_meta_init : image_meta K :=
  { height := 0, width := 0, ymax := -1, ymin := -1, xmax := -1, xmin := -1,
    file_name := none }

/-- The body of the `switch(c)` in the option loop of `image_meta_gen`: the
descriptor after one `getopt` result, or the exit code. -/
def apply_option (image : image_meta K) : getopt_result → Except ℤ (image_meta K)
  | getopt_result.opt c optarg =>
    if c = 'h' then Except.ok { image with height := to_uint (atoi optarg) }
    else if c = 't' then Except.ok { image with ymax := ((atof optarg : ℚ) : K) }
    else if c = 'b' then Except.ok { image with ymin := ((atof optarg : ℚ) : K) }
    else if c = 'v' then Except.ok { image with xmax := ((atof optarg : ℚ) : K) }
    else if c = 'n' then Except.ok { image with xmin := ((atof optarg : ℚ) : K) }
    else if c = 'f' then Except.ok { image with file_name := some optarg }
    else Except.ok image
  | getopt_result.unknown _ => Except.error ARG_ERROR

/-- The `while((c = getopt(...)) != -1)` loop of `image_meta_gen`. -/
def option_loop (image : image_meta K) : List getopt_result → Except ℤ (image_meta K)
  | [] => Except.ok image
  | r :: rs =>
    match apply_option image r with
    | Except.ok image2 => option_loop image2 rs
    | Except.error e => Except.error e

/-- The part of `image_meta_gen` after the checks: default bounds when the two
bounds of an axis are equal (`0.8`, `-2.0`, `1.2`, `-1.2` as exact decimals),
exchange of bounds given in the wrong order, then the width. -/
def normalise_bounds (image : image_meta K) : image_meta K :=
  let i1 := if image.xmax = image.xmin then { image with xmax := 4 / 5, xmin := -2 } else image
  let i2 := if i1.ymax = i1.ymin then { i1 with ymax := 6 / 5, ymin := -(6 / 5) } else i1
  let i3 := if i2.xmin > i2.xmax then { i2 with xmin := i2.xmax, xmax := i2.xmin } else i2
  let i4 := if i3.ymin > i3.ymax then { i3 with ymin := i3.ymax, ymax := i3.ymin } else i3
  { i4 with
    width := double_to_uint ((i4.height : K) * (i4.xmax - i4.xmin) / (i4.ymax - i4.ymin)) }

/-- Function `image_meta_gen` of `src/mandelbrot.c`; `argc` is the length of
`argv`.  The result is the descriptor returned or the code passed to `exit`. -/
def image_meta_gen (argv : List String) : Except ℤ (image_meta K) :=
  match option_loop image_meta_init (getopt_scan argv.tail) with
  | Except.error e => Except.error e
  | Except.ok image =>
    if argv.length < 4 then Except.error ARG_ERROR
    else if image.height < 30 then Except.error SIZE_ERROR
    else Except.ok (normalise_bounds image)

end Descriptor

/-! ## Rasteriser and serialiser in `main` of `src/mandelbrot.c` -/

/-- The max channel value that the header literal of `main` declares. -/
def header_maxval : ℕ := 255

section Rasteriser

variable {K : Type} [LinearOrderedField K]

/-- The local `xdiffratio` of `main`. -/
def xdiffratio (image : image_meta K) : K := (image.xmax - image.xmin) / (image.width : K)

/-- The local `ydiffratio` of `main`. -/
def ydiffratio (image : image_meta K) : K := (image.ymax - image.ymin) / (image.height : K)

/-- The sample `num` that `main` passes to `mandelbrot_test` for the pixel
`(xpx, ypx)`. -/
def sample (image : image_meta K) (xpx ypx : ℕ) : cplx K :=
  ⟨image.xmin + (xpx : K) * xdiffratio image, image.ymax - (ypx : K) * ydiffratio image⟩

/-- The number of `colour` slots requested from `malloc`:
`image.width * image.height` in `unsigned int` arithmetic.  It is also the
element count passed to `fwrite`. -/
def buffer_slots (image : image_meta K) : ℕ := (image.width * image.height) % 4294967296

/-- The index `ypx * image.width + xpx` of the assignment into `rgb`, in
`unsigned int` arithmetic. -/
def buffer_index (image : image_meta K) (xpx ypx : ℕ) : ℕ :=
  ((ypx * image.width) % 4294967296 + xpx) % 4294967296

/-- The header `main` writes with `"P6 %d %d 255\n"`; `%d` prints the
`unsigned int` as an `int`. -/
def header (image : image_meta K) : String :=
  "P6 " ++ toString (to_int image.width) ++ " " ++ toString (to_int image.height) ++ " " ++
    toString header_maxval ++ "\n"

end Rasteriser

/-- The colour `main` assigns to `rgb[ypx * image.width + xpx]`, which is
`rgb_gen(mandelbrot_test(num))` for the sample `num` of the pixel. -/
noncomputable def pixel_colour {K : Type} [LinearOrderedField K] (image : image_meta K)
    (xpx ypx : ℕ) : colour :=
  rgb_gen ((mandelbrot_test (sample image xpx ypx) : ℕ) : ℤ)

/-- Size in bytes of an `unsigned short`. -/
def sizeof_ushort : ℕ := 2

/-- Size in bytes of the `colour` struct: three `unsigned short` members, no
padding. -/
def sizeof_colour : ℕ := 3 * sizeof_ushort

/-- The bytes of one `unsigned short` in memory (low byte first, as on the
usual little-endian hosts). -/
def ushort_bytes (v : ℕ) : List ℕ := [v % 256, v / 256 % 256]

/-- The bytes of one `colour` in memory. -/
def colour_bytes (c : colour) : List ℕ :=
  ushort_bytes c.red ++ ushort_bytes c.green ++ ushort_bytes c.blue

/-- The bytes `fwrite(rgb, sizeof(colour), count, file)` appends to the file
for the buffer contents `rgb`. -/
def fwrite_colours : List colour → List ℕ
  | [] => []
  | c :: cs => colour_bytes c ++ fwrite_colours cs

/-- The byte width of a channel sample in a P6 pixmap whose header declares
the given max value: 1 byte up to 255, else 2 (the 16-bit encoding). -/
def p6_channel_bytes (maxval : ℕ) : ℕ := if maxval < 256 then 1 else 2

/-- The descriptor of the run `mandelbrot -f out.ppm -h 30`: height 30 with
the default bounds, hence width 35. -/
def small_image : image_meta ℚ :=
  { height := 30, width := 35, ymax := 6 / 5, ymin := -(6 / 5), xmax := 4 / 5, xmin := -2,
    file_name := some "out.ppm" }

/-- The descriptor of the run `mandelbrot -f out.ppm -h 65536`: height 65536
with the default bounds, hence width 76458. -/
def large_image : image_meta ℚ :=
  { height := 65536, width := 76458, ymax := 6 / 5, ymin := -(6 / 5), xmax := 4 / 5, xmin := -2,
    file_name := some "out.ppm" }

/-- The descriptor of the run `mandelbrot -f out.ppm -h 30 -n 0 -v 0.01`. -/
def thin_image : image_meta ℚ :=
  { height := 30, width := 0, ymax := 6 / 5, ymin := -(6 / 5), xmax := 1 / 100, xmin := 0,
    file_name := some "out.ppm" }

/-- The descriptor of the run `mandelbrot -f out.ppm -h -2000000000`: the
`int` returned by `atoi` becomes the `unsigned int` height
`4294967296 - 2000000000`. -/
def wrapped_height_image : image_meta ℚ :=
  { height := 2294967296, width := 2677461845, ymax := 6 / 5, ymin := -(6 / 5), xmax := 4 / 5,
    xmin := -2, file_name := some "out.ppm" }

/-- The descriptor of the run `mandelbrot -h 100 -t 1`, which has no `-f`. -/
def nameless_image : image_meta ℚ :=
  { height := 100, width := 140, ymax := 1, ymin := -1, xmax := 4 / 5, xmin := -2,
    file_name := none }

/-! ## Double arithmetic of the colour mapper -/

/-- The arithmetic on `double` that `rgb_gen` relies on: `round` gives the
`double` that a multiplication or a division returns for its exact result,
and `log2` is the function `log2` of `math.h`.  A `double` is taken as the
real number it denotes. -/
structure double_arith where
  round : ℝ → ℝ
  log2 : ℝ → ℝ

/-- Exact arithmetic: nothing is rounded and `log2` is the real logarithm. -/
noncomputable def exact_arith : double_arith :=
  { round := fun x => x, log2 := fun x => Real.logb 2 x }

/-- The integer nearest to `y`, the even one of the two when `y` lies half way
between them. -/
noncomputable def round_half_even (y : ℝ) : ℤ :=
  if y - (⌊y⌋ : ℝ) < 1 / 2 then ⌊y⌋
  else if 1 / 2 < y - (⌊y⌋ : ℝ) then ⌊y⌋ + 1
  else if Even ⌊y⌋ then ⌊y⌋ else ⌊y⌋ + 1

/-- Rounding of a real number to the nearest `double` in the default rounding
mode of IEEE 754: the significand is kept to 53 bits, that is, `x` is rounded
to the nearest multiple of `2 ^ (e - 52)` with `2 ^ e ≤ |x| < 2 ^ (e + 1)`,
ties to even.  The exponent range is not limited. -/
noncomputable def round_double (x : ℝ) : ℝ :=
  if x = 0 then 0
  else (round_half_even (x / (2 : ℝ) ^ (Int.log 2 |x| - 52)) : ℝ) * (2 : ℝ) ^ (Int.log 2 |x| - 52)

/-- IEEE 754 double arithmetic with a correctly rounded `log2`. -/
noncomputable def ieee_arith : double_arith :=
  { round := round_double, log2 := fun x => round_double (Real.logb 2 x) }

/-- What the colour mapper needs from the double arithmetic: zero is exact,
the rounding of a result of magnitude between `1` and `2 ^ 20` has relative
error at most `2 ^ -53` (round to nearest), and `log2` is within one unit in
the last place, a relative error of at most `2 ^ -52`, on the integers
`1 .. 1999`. -/
def double_arith.accurate (A : double_arith) : Prop :=
  A.round 0 = 0 ∧
  (∀ x : ℝ, 1 ≤ |x| → |x| ≤ 2 ^ 20 → |A.round x - x| ≤ |x| / 2 ^ 53) ∧
  (∀ n : ℤ, 1 ≤ n → n ≤ 1999 →
    |A.log2 (n : ℝ) - Real.logb 2 (n : ℝ)| ≤ Real.logb 2 (n : ℝ) / 2 ^ 52)

/-- The value of the `double` expression
`USHORT_MAX * log2(iterations) / log2(MAX_TESTS - 1)` of `rgb_gen` in the
arithmetic `A`: the product is rounded, then the quotient. -/
noncomputable def brightness_double (A : double_arith) (iterations : ℤ) : ℝ :=
  A.round (A.round ((USHORT_MAX : ℝ) * A.log2 (iterations : ℝ)) /
    A.log2 ((MAX_TESTS - 1 : ℕ) : ℝ))

/-- Function `rgb_gen` of `src/mandelbrot.c` with the brightness evaluated in
the double arithmetic `A`. -/
noncomputable def rgb_gen_double (A : double_arith) (iterations : ℤ) : colour :=
  if iterations ≠ (MAX_TESTS : ℤ) then
    { red := to_ushort (to_short (trunc (brightness_double A iterations)))
      green := to_ushort (to_short (trunc (brightness_double A iterations)))
      blue := USHORT_MAX }
  else
    { red := USHORT_MAX, green := USHORT_MAX, blue := USHORT_MAX }

/-! ## Orbit of the iteration and its reading in Mathlib's complex numbers -/

section Orbit

variable {K : Type} [LinearOrderedField K]

/-- The value of `x` in `mandelbrot_test` after `n` rounds of
`x *= x; x += c;` starting from `x = 0`. -/
def orbit (c : cplx K) : ℕ → cplx K
  | 0 => czero
  | n + 1 => cadd (cmul (orbit c n) (orbit c n)) c

end Orbit

/-- The complex number of Mathlib that a `double complex` value over the
reals denotes. -/
def toComplex (x : cplx ℝ) : ℂ := ⟨x.re, x.im⟩

/-- The loop body `x *= x; x += c;` on Mathlib's complex numbers. -/
def quad_step (c z : ℂ) : ℂ := z * z + c

/-! ## Theorems -/

/-- C2: `mandelbrot_test` applied to `c = 2 + 0i` returns `1`; the cardioid
test fails for this `c` and the first iterate already meets the escape
condition. -/
theorem mandelbrot_test_two (K : Type) [LinearOrderedField K] :
    mandelbrot_test (⟨2, 0⟩ : cplx K) = 1 ∧ ¬ cardioid_test (⟨2, 0⟩ : cplx K) ∧
      cabs_ge_two (cadd (cmul czero czero) (⟨2, 0⟩ : cplx K)) := by
  have h1 : ¬ cardioid_test (⟨2, 0⟩ : cplx K) := by
    simp only [cardioid_test, creal, cmul, conj]
    norm_num
  have h2 : cabs_ge_two (cadd (cmul czero czero) (⟨2, 0⟩ : cplx K)) := by
    simp only [cabs_ge_two, cabs_sq, cadd, cmul, czero]
    norm_num
  refine ⟨?_, h1, h2⟩
  rw [mandelbrot_test, if_neg h1]
  show escape_loop _ (1998 + 1) 1 czero = 1
  rw [escape_loop, if_pos h2]

/-- C3: `mandelbrot_test` applied to `c = 0` returns `MAX_TESTS`, which is
2000. -/
theorem mandelbrot_test_zero (K : Type) [LinearOrderedField K] :
    mandelbrot_test (⟨0, 0⟩ : cplx K) = MAX_TESTS ∧ MAX_TESTS = 2000 := by
  have h1 : cardioid_test (⟨0, 0⟩ : cplx K) := by
    simp only [cardioid_test, creal, cmul, conj]
    norm_num
  exact ⟨by rw [mandelbrot_test, if_pos h1], rfl⟩

/-! ### Colour mapper -/

/-- The denominator `log2(MAX_TESTS - 1)` is positive. -/
theorem logb_budget_pos : 0 < Real.logb 2 ((MAX_TESTS - 1 : ℕ) : ℝ) := by
  apply Real.logb_pos (by norm_num)
  norm_num [MAX_TESTS]

/-- The brightness expression is `USHORT_MAX` at `MAX_TESTS - 1` iterations. -/
theorem brightness_expr_last : brightness_expr 1999 = 65535 := by
  have hpos := logb_budget_pos
  unfold brightness_expr
  have h : ((1999 : ℤ) : ℝ) = ((MAX_TESTS - 1 : ℕ) : ℝ) := by norm_num [MAX_TESTS]
  rw [h, mul_div_assoc, div_self hpos.ne']
  norm_num [USHORT_MAX]

/-- C6: `rgb_gen` applied to the iteration budget yields the fixed in-set
colour: white (all channels `USHORT_MAX = 65535`) in `src/mandelbrot.c`, black
(all channels `0`) in both old variants, whose budget is 1000. -/
theorem rgb_gen_budget :
    rgb_gen 2000 = ⟨65535, 65535, 65535⟩ ∧ (MAX_TESTS : ℤ) = 2000 ∧
    Old.rgb_gen 1000 = ⟨0, 0, 0⟩ ∧ (Old.MAX_TESTS : ℤ) = 1000 ∧
    OldParallel.rgb_gen 1000 = ⟨0, 0, 0⟩ ∧ (OldParallel.MAX_TESTS : ℤ) = 1000 := by
  refine ⟨?_, rfl, ?_, rfl, ?_, rfl⟩
  · simp [rgb_gen, MAX_TESTS, USHORT_MAX]
  · simp [Old.rgb_gen, Old.MAX_TESTS]
  · simp [OldParallel.rgb_gen, OldParallel.MAX_TESTS]

/-! ### Viewport mapper -/

/-- C9: for a descriptor with positive width and height and ordered bounds,
the sample of the pixel `(xpx, ypx)` inside the grid is
`(xmin + xpx*(xmax-xmin)/width) + i*(ymax - ypx*(ymax-ymin)/height)`; row 0 has
imaginary part `ymax`, column 0 has real part `xmin`, the real part lies in
`[xmin, xmax)` and the imaginary part in `(ymin, ymax]`. -/
theorem sample_formula {K : Type} [LinearOrderedField K] (image : image_meta K)
    (xpx ypx : ℕ) (hw : 0 < image.width) (hh : 0 < image.height)
    (hx : image.xmin < image.xmax) (hy : image.ymin < image.ymax)
    (hxp : xpx < image.width) (hyp : ypx < image.height) :
    sample image xpx ypx =
      ⟨image.xmin + (xpx : K) * (image.xmax - image.xmin) / (image.width : K),
       image.ymax - (ypx : K) * (image.ymax - image.ymin) / (image.height : K)⟩ ∧
    (sample image xpx 0).im = image.ymax ∧
    (sample image 0 ypx).re = image.xmin ∧
    image.xmin ≤ (sample image xpx ypx).re ∧ (sample image xpx ypx).re < image.xmax ∧
    image.ymin < (sample image xpx ypx).im ∧ (sample image xpx ypx).im ≤ image.ymax := by
  have hwK : (0 : K) < (image.width : K) := by exact_mod_cast hw
  have hhK : (0 : K) < (image.height : K) := by exact_mod_cast hh
  have hxK : (xpx : K) < (image.width : K) := by exact_mod_cast hxp
  have hyK : (ypx : K) < (image.height : K) := by exact_mod_cast hyp
  have hx0 : (0 : K) ≤ (xpx : K) := Nat.cast_nonneg xpx
  have hy0 : (0 : K) ≤ (ypx : K) := Nat.cast_nonneg ypx
  have hdx : 0 < image.xmax - image.xmin := sub_pos.mpr hx
  have hdy : 0 < image.ymax - image.ymin := sub_pos.mpr hy
  have ex : (xpx : K) * xdiffratio image =
      (xpx : K) * (image.xmax - image.xmin) / (image.width : K) := by
    unfold xdiffratio; rw [mul_div_assoc]
  have ey : (ypx : K) * ydiffratio image =
      (ypx : K) * (image.ymax - image.ymin) / (image.height : K) := by
    unfold ydiffratio; rw [mul_div_assoc]
  have bx0 : 0 ≤ (xpx : K) * xdiffratio image := by
    rw [ex]; exact div_nonneg (mul_nonneg hx0 hdx.le) hwK.le
  have bx1 : (xpx : K) * xdiffratio image < image.xmax - image.xmin := by
    rw [ex, div_lt_iff₀ hwK, mul_comm]
    exact mul_lt_mul_of_pos_left hxK hdx
  have by0 : 0 ≤ (ypx : K) * ydiffratio image := by
    rw [ey]; exact div_nonneg (mul_nonneg hy0 hdy.le) hhK.le
  have by1 : (ypx : K) * ydiffratio image < image.ymax - image.ymin := by
    rw [ey, div_lt_iff₀ hhK, mul_comm]
    exact mul_lt_mul_of_pos_left hyK hdy
  refine ⟨?_, ?_, ?_, ?_, ?_, ?_, ?_⟩
  · simp only [sample, ex, ey]
  · simp [sample]
  · simp [sample]
  · show image.xmin ≤ image.xmin + (xpx : K) * xdiffratio image
    linarith
  · show image.xmin + (xpx : K) * xdiffratio image < image.xmax
    linarith
  · show image.ymin < image.ymax - (ypx : K) * ydiffratio image
    linarith
  · show image.ymax - (ypx : K) * ydiffratio image ≤ image.ymax
    linarith

/-- Witness of C9: the pixel `(1, 2)` of the 35 by 30 image with the default
bounds. -/
theorem sample_formula_witness :
    sample small_image 1 2 =
      ⟨small_image.xmin + ((1 : ℕ) : ℚ) * (small_image.xmax - small_image.xmin) /
          (small_image.width : ℚ),
       small_image.ymax - ((2 : ℕ) : ℚ) * (small_image.ymax - small_image.ymin) /
          (small_image.height : ℚ)⟩ ∧
    (sample small_image 1 0).im = small_image.ymax ∧
    (sample small_image 0 2).re = small_image.xmin ∧
    small_image.xmin ≤ (sample small_image 1 2).re ∧
    (sample small_image 1 2).re < small_image.xmax ∧
    small_image.ymin < (sample small_image 1 2).im ∧
    (sample small_image 1 2).im ≤ small_image.ymax :=
  sample_formula small_image 1 2 (by decide) (by decide)
    (by norm_num [small_image]) (by norm_num [small_image]) (by decide) (by decide)

/-! ### Pixel buffer -/

/-- When `width * height` fits in an `unsigned int`, the index of a pixel of
the grid is below the number of allocated slots. -/
theorem buffer_index_lt_slots {K : Type} [LinearOrderedField K] (image : image_meta K)
    (xpx ypx : ℕ) (hfit : image.width * image.height < 4294967296)
    (hxp : xpx < image.width) (hyp : ypx < image.height) :
    buffer_index image xpx ypx = ypx * image.width + xpx ∧
      buffer_index image xpx ypx < buffer_slots image := by
  have h1 : ypx * image.width + xpx < image.width * image.height := by
    calc ypx * image.width + xpx < ypx * image.width + image.width := by omega
      _ = (ypx + 1) * image.width := by ring
      _ ≤ image.height * image.width := Nat.mul_le_mul_right _ hyp
      _ = image.width * image.height := Nat.mul_comm _ _
  have h2 : ypx * image.width < 4294967296 := by omega
  have e : buffer_index image xpx ypx = ypx * image.width + xpx := by
    unfold buffer_index
    rw [Nat.mod_eq_of_lt h2, Nat.mod_eq_of_lt (by omega)]
  refine ⟨e, ?_⟩
  rw [e]
  unfold buffer_slots
  rw [Nat.mod_eq_of_lt hfit]
  exact h1

/-- When `width * height` fits in an `unsigned int`, two different pixels of
the grid have different indices. -/
theorem buffer_index_injective {K : Type} [LinearOrderedField K] (image : image_meta K)
    (x1 y1 x2 y2 : ℕ) (hfit : image.width * image.height < 4294967296)
    (hx1 : x1 < image.width) (hy1 : y1 < image.height)
    (hx2 : x2 < image.width) (hy2 : y2 < image.height)
    (he : buffer_index image x1 y1 = buffer_index image x2 y2) : x1 = x2 ∧ y1 = y2 := by
  rw [(buffer_index_lt_slots image x1 y1 hfit hx1 hy1).1,
    (buffer_index_lt_slots image x2 y2 hfit hx2 hy2).1] at he
  have hw : 0 < image.width := by omega
  have hd := congrArg (fun n => n / image.width) he
  have hm := congrArg (fun n => n % image.width) he
  simp only [Nat.mul_comm _ image.width] at hd hm
  rw [Nat.mul_add_div hw, Nat.mul_add_div hw, Nat.div_eq_of_lt hx1, Nat.div_eq_of_lt hx2] at hd
  rw [Nat.mul_add_mod, Nat.mul_add_mod, Nat.mod_eq_of_lt hx1, Nat.mod_eq_of_lt hx2] at hm
  exact ⟨hm, by simpa using hd⟩

/-- C8 fails on the code: `mandelbrot -f out.ppm -h 65536` yields the
descriptor of width 76458 and height 65536; the number of slots allocated
wraps to 715784192, the pixel `(0, 50000)` has index 3822900000, beyond the
allocation, and the pixels `(0, 0)` and `(15604, 56174)` share index 0. -/
theorem buffer_index_overflow :
    image_meta_gen ["mandelbrot", "-f", "out.ppm", "-h", "65536"] = Except.ok large_image ∧
    buffer_slots large_image = 715784192 ∧
    0 < large_image.width ∧ 50000 < large_image.height ∧
    buffer_index large_image 0 50000 = 3822900000 ∧
    ¬ buffer_index large_image 0 50000 < buffer_slots large_image ∧
    15604 < large_image.width ∧ 56174 < large_image.height ∧
    buffer_index large_image 15604 56174 = buffer_index large_image 0 0 := by
  refine ⟨?_, by decide, by decide, by decide, by decide, by decide, by decide, by decide,
    by decide⟩
  simp [image_meta_gen, getopt_scan, optstring_chars, option_loop, apply_option,
    image_meta_init, atoi, strip_sign, isspace, isdigit, digits_value,
    normalise_bounds, to_uint, to_int, double_to_uint, trunc, large_image]
  norm_num
  rfl

/-! ### Serialiser -/

/-- The bytes written for a buffer: `sizeof(colour)` bytes for each element. -/
theorem fwrite_colours_length (rgb : List colour) :
    (fwrite_colours rgb).length = sizeof_colour * rgb.length := by
  induction rgb with
  | nil => rfl
  | cons c cs ih =>
    simp only [fwrite_colours, List.length_append, ih, List.length_cons, colour_bytes,
      ushort_bytes, List.length_nil, sizeof_colour, sizeof_ushort]
    ring

/-- C4 fails on the code: the header declares the max value 255, for which a
P6 sample is 1 byte and a pixel 3 bytes, but `fwrite` emits
`sizeof(colour) = 6` bytes for each pixel; for the 35 by 30 image it writes
6300 bytes of pixel data where the header announces 3150. -/
theorem serialiser_channel_width_mismatch :
    header small_image = "P6 35 30 255\n" ∧
    p6_channel_bytes header_maxval = 1 ∧
    sizeof_colour = 6 ∧
    (∀ rgb : List colour, (fwrite_colours rgb).length = 6 * rgb.length) ∧
    buffer_slots small_image = 35 * 30 ∧
    (∀ rgb : List colour, rgb.length = buffer_slots small_image →
      (fwrite_colours rgb).length = 6300 ∧
      (fwrite_colours rgb).length ≠ 35 * 30 * (3 * p6_channel_bytes header_maxval)) := by
  refine ⟨by decide, by decide, by decide, fun rgb => fwrite_colours_length rgb, by decide, ?_⟩
  intro rgb h
  have hs : buffer_slots small_image = 1050 := by decide
  rw [fwrite_colours_length, h, hs]
  decide

/-! ### Image descriptor -/

/-- The option loop does not fail when `image_meta_gen` returns. -/
theorem image_meta_gen_ok {K : Type} [LinearOrderedField K] [FloorRing K]
    (argv : List String) (image : image_meta K)
    (h : image_meta_gen argv = Except.ok image) :
    ∃ parsed : image_meta K,
      option_loop image_meta_init (getopt_scan argv.tail) = Except.ok parsed ∧
      ¬ argv.length < 4 ∧ ¬ parsed.height < 30 ∧ image = normalise_bounds parsed := by
  unfold image_meta_gen at h
  split at h
  · exact absurd h (by simp)
  · rename_i parsed hp
    split_ifs at h with h1 h2
    exact ⟨parsed, hp, h1, h2, (Except.ok.inj h).symm⟩

/-- The bounds are ordered after `normalise_bounds`, and the height is kept. -/
theorem normalise_bounds_ordered {K : Type} [LinearOrderedField K] [FloorRing K]
    (image : image_meta K) :
    (normalise_bounds image).height = image.height ∧
    (normalise_bounds image).xmin < (normalise_bounds image).xmax ∧
    (normalise_bounds image).ymin < (normalise_bounds image).ymax := by
  have hx : (-2 : K) < 4 / 5 := by norm_num
  have hy : (-(6 / 5) : K) < 6 / 5 := by norm_num
  unfold normalise_bounds
  refine ⟨?_, ?_, ?_⟩
  · simp only
    split_ifs <;> rfl
  · simp only
    split_ifs <;> simp_all <;>
      first
      | assumption
      | exact lt_of_le_of_ne (by assumption) (by intro e; simp_all)
  · simp only
    split_ifs <;> simp_all <;>
      first
      | assumption
      | exact lt_of_le_of_ne (by assumption) (by intro e; simp_all)

/-- The part of C10 that holds: every descriptor `image_meta_gen` returns has
height at least 30 and ordered bounds on both axes. -/
theorem image_meta_gen_height_bounds {K : Type} [LinearOrderedField K] [FloorRing K]
    (argv : List String) (image : image_meta K)
    (h : image_meta_gen argv = Except.ok image) :
    30 ≤ image.height ∧ image.xmin < image.xmax ∧ image.ymin < image.ymax := by
  obtain ⟨parsed, -, -, h30, rfl⟩ := image_meta_gen_ok argv image h
  obtain ⟨e, hx, hy⟩ := normalise_bounds_ordered parsed
  exact ⟨by rw [e]; omega, hx, hy⟩

/-- C10 fails on the code: `mandelbrot -f out.ppm -h 30 -n 0 -v 0.01` passes
every check of `image_meta_gen` and the descriptor returned has width
`30 * 0.01 / 2.4` truncated, which is 0. -/
theorem image_meta_gen_zero_width :
    image_meta_gen ["mandelbrot", "-f", "out.ppm", "-h", "30", "-n", "0", "-v", "0.01"] =
      Except.ok thin_image ∧ thin_image.width = 0 ∧ ¬ 1 ≤ thin_image.width := by
  refine ⟨?_, rfl, by decide⟩
  simp [image_meta_gen, getopt_scan, optstring_chars, option_loop, apply_option,
    image_meta_init, atof, atoi, strip_sign, isspace, isdigit, digits_value, exponent_value,
    normalise_bounds, to_uint, to_int, double_to_uint, trunc, thin_image]
  norm_num

/-! ### Holomorphic square roots on a disc -/

section CardioidOrbit

open Metric Set MeasureTheory

/-- The derivative of a function holomorphic on an open ball is continuous on
the ball. -/
theorem deriv_continuousOn_ball (a : ℂ) (R : ℝ) (k : ℂ → ℂ)
    (hk : DifferentiableOn ℂ k (ball a R)) : ContinuousOn (deriv k) (ball a R) :=
  ((hk.analyticOnNhd isOpen_ball).deriv).continuousOn

/-- Points of the segment from the centre to a point of a ball stay in the
ball. -/
theorem segment_mem_closedBall (a z : ℂ) (r : ℝ) (t : ℝ) (ht0 : 0 ≤ t) (ht1 : t ≤ 1)
    (hz : z ∈ closedBall a r) : a + (t : ℂ) * (z - a) ∈ closedBall a r := by
  rw [mem_closedBall, dist_eq_norm] at *
  have : a + (t : ℂ) * (z - a) - a = (t : ℂ) * (z - a) := by ring
  rw [this, norm_mul, Complex.norm_eq_abs, Complex.abs_ofReal, abs_of_nonneg ht0]
  calc t * ‖z - a‖ ≤ 1 * ‖z - a‖ := mul_le_mul_of_nonneg_right ht1 (norm_nonneg _)
    _ = ‖z - a‖ := one_mul _
    _ ≤ r := hz

/-- Derivative of the average of a holomorphic function over the segments
from the centre of a ball. -/
theorem hasDerivAt_segment_average (a : ℂ) (R : ℝ) (k : ℂ → ℂ)
    (hk : DifferentiableOn ℂ k (ball a R)) (z0 : ℂ) (hz0 : z0 ∈ ball a R) :
    HasDerivAt (fun z : ℂ => ∫ t in (0 : ℝ)..1, k (a + (t : ℂ) * (z - a)))
      (∫ t in (0 : ℝ)..1, (t : ℂ) * deriv k (a + (t : ℂ) * (z0 - a))) z0 := by
  have hρ : dist z0 a < R := hz0
  set ε : ℝ := (R - dist z0 a) / 2 with hε
  have hεpos : 0 < ε := by rw [hε]; linarith
  set r : ℝ := dist z0 a + ε with hr
  have hrR : r < R := by rw [hr, hε]; linarith
  have hsub : closedBall a r ⊆ ball a R := closedBall_subset_ball hrR
  have hball : ∀ z ∈ ball z0 ε, z ∈ closedBall a r := by
    intro z hz
    rw [mem_closedBall]
    have := dist_triangle z z0 a
    rw [mem_ball] at hz
    rw [hr]; linarith
  have hseg : ∀ z ∈ ball z0 ε, ∀ t : ℝ, t ∈ Icc (0 : ℝ) 1 → a + (t : ℂ) * (z - a) ∈ ball a R :=
    fun z hz t ht => hsub (segment_mem_closedBall a z r t ht.1 ht.2 (hball z hz))
  have hdc : ContinuousOn (deriv k) (closedBall a r) :=
    (deriv_continuousOn_ball a R k hk).mono hsub
  obtain ⟨M, hM⟩ := (isCompact_closedBall a r).exists_bound_of_continuousOn hdc
  have hpath : ∀ z : ℂ, Continuous (fun t : ℝ => a + (t : ℂ) * (z - a)) := by
    intro z; continuity
  have hcontF : ∀ z ∈ ball z0 ε, ContinuousOn (fun t : ℝ => k (a + (t : ℂ) * (z - a))) (Icc 0 1) := by
    intro z hz
    exact hk.continuousOn.comp (hpath z).continuousOn (fun t ht => hseg z hz t ht)
  have hcontF' : ContinuousOn (fun t : ℝ => (t : ℂ) * deriv k (a + (t : ℂ) * (z0 - a))) (Icc 0 1) := by
    apply ContinuousOn.mul Complex.continuous_ofReal.continuousOn
    exact (deriv_continuousOn_ball a R k hk).comp (hpath z0).continuousOn
      (fun t ht => hseg z0 (mem_ball_self hεpos) t ht)
  have hIoc : Ι (0 : ℝ) 1 = Ioc 0 1 := uIoc_of_le zero_le_one
  have key := @intervalIntegral.hasDerivAt_integral_of_dominated_loc_of_deriv_le ℂ _ volume ℂ _ _ _
    0 1 ε (fun _ => M) (fun (z : ℂ) (t : ℝ) => k (a + (t : ℂ) * (z - a)))
    (fun (z : ℂ) (t : ℝ) => (t : ℂ) * deriv k (a + (t : ℂ) * (z - a))) z0 hεpos ?_ ?_ ?_ ?_ ?_ ?_
  · exact key.2
  · filter_upwards [ball_mem_nhds z0 hεpos] with z hz
    rw [hIoc]
    exact ((hcontF z hz).mono Ioc_subset_Icc_self).aestronglyMeasurable measurableSet_Ioc
  · apply ContinuousOn.intervalIntegrable
    rw [uIcc_of_le zero_le_one]
    exact hcontF z0 (mem_ball_self hεpos)
  · rw [hIoc]
    exact (hcontF'.mono Ioc_subset_Icc_self).aestronglyMeasurable measurableSet_Ioc
  · refine Filter.Eventually.of_forall (fun t ht z hz => ?_)
    rw [hIoc] at ht
    have h1 : a + (t : ℂ) * (z - a) ∈ closedBall a r :=
      segment_mem_closedBall a z r t ht.1.le ht.2 (hball z hz)
    rw [norm_mul, Complex.norm_eq_abs, Complex.abs_ofReal, abs_of_pos ht.1]
    calc t * ‖deriv k (a + (t : ℂ) * (z - a))‖ ≤ 1 * M :=
          mul_le_mul ht.2 (hM _ h1) (norm_nonneg _) zero_le_one
      _ = M := one_mul _
  · exact intervalIntegrable_const
  · refine Filter.Eventually.of_forall (fun t ht z hz => ?_)
    rw [hIoc] at ht
    have h1 : a + (t : ℂ) * (z - a) ∈ ball a R := hseg z hz t ⟨ht.1.le, ht.2⟩
    have hk1 : HasDerivAt k (deriv k (a + (t : ℂ) * (z - a))) (a + (t : ℂ) * (z - a)) :=
      (hk.differentiableAt (isOpen_ball.mem_nhds h1)).hasDerivAt
    have hin : HasDerivAt (fun z : ℂ => a + (t : ℂ) * (z - a)) (t : ℂ) z := by
      have := ((hasDerivAt_id z).sub_const a).const_mul (t : ℂ)
      simpa using this.const_add a
    have := HasDerivAt.comp z hk1 hin
    simpa [mul_comm] using this

/-- A function holomorphic on an open ball has a primitive on the ball that
vanishes at the centre. -/
theorem exists_primitive_on_ball (a : ℂ) (R : ℝ) (k : ℂ → ℂ)
    (hk : DifferentiableOn ℂ k (ball a R)) :
    ∃ L : ℂ → ℂ, L a = 0 ∧ ∀ z ∈ ball a R, HasDerivAt L (k z) z := by
  refine ⟨fun z => (z - a) * ∫ t in (0 : ℝ)..1, k (a + (t : ℂ) * (z - a)), by simp, ?_⟩
  intro z0 hz0
  have hG := hasDerivAt_segment_average a R k hk z0 hz0
  have hL := ((hasDerivAt_id z0).sub_const a).mul hG
  have hseg : ∀ t : ℝ, t ∈ Icc (0 : ℝ) 1 → a + (t : ℂ) * (z0 - a) ∈ ball a R := by
    intro t ht
    have h1 : z0 ∈ closedBall a (dist z0 a) := mem_closedBall.mpr le_rfl
    exact closedBall_subset_ball hz0 (segment_mem_closedBall a z0 _ t ht.1 ht.2 h1)
  have hpath : Continuous (fun t : ℝ => a + (t : ℂ) * (z0 - a)) := by continuity
  have hc1 : ContinuousOn (fun t : ℝ => k (a + (t : ℂ) * (z0 - a))) (Icc 0 1) :=
    hk.continuousOn.comp hpath.continuousOn hseg
  have hc2 : ContinuousOn (fun t : ℝ => (t : ℂ) * deriv k (a + (t : ℂ) * (z0 - a))) (Icc 0 1) :=
    ContinuousOn.mul Complex.continuous_ofReal.continuousOn
      ((deriv_continuousOn_ball a R k hk).comp hpath.continuousOn hseg)
  have hi1 : IntervalIntegrable (fun t : ℝ => k (a + (t : ℂ) * (z0 - a))) volume 0 1 := by
    apply ContinuousOn.intervalIntegrable
    rwa [uIcc_of_le zero_le_one]
  have hi2 : IntervalIntegrable (fun t : ℝ => (z0 - a) * ((t : ℂ) * deriv k (a + (t : ℂ) * (z0 - a))))
      volume 0 1 := by
    apply ContinuousOn.intervalIntegrable
    rw [uIcc_of_le zero_le_one]
    exact continuousOn_const.mul hc2
  have hftc : ∫ t in (0 : ℝ)..1, (k (a + (t : ℂ) * (z0 - a)) +
      (z0 - a) * ((t : ℂ) * deriv k (a + (t : ℂ) * (z0 - a)))) = k z0 := by
    have hd : ∀ t ∈ uIcc (0 : ℝ) 1, HasDerivAt (fun s : ℝ => (s : ℂ) * k (a + (s : ℂ) * (z0 - a)))
        (k (a + (t : ℂ) * (z0 - a)) +
          (z0 - a) * ((t : ℂ) * deriv k (a + (t : ℂ) * (z0 - a)))) t := by
      intro t ht
      rw [uIcc_of_le zero_le_one] at ht
      have h1 := hseg t ht
      have hk1 : HasDerivAt k (deriv k (a + (t : ℂ) * (z0 - a))) (a + (t : ℂ) * (z0 - a)) :=
        (hk.differentiableAt (isOpen_ball.mem_nhds h1)).hasDerivAt
      have hin : HasDerivAt (fun w : ℂ => a + w * (z0 - a)) (z0 - a) (t : ℂ) := by
        have := ((hasDerivAt_id (t : ℂ)).mul_const (z0 - a)).const_add a
        simpa using this
      have hcomp := HasDerivAt.comp (t : ℂ) hk1 hin
      have hprod := (hasDerivAt_id (t : ℂ)).mul hcomp
      have hreal := hprod.comp_ofReal
      convert hreal using 1
      simp only [id, Function.comp]
      ring
    rw [intervalIntegral.integral_eq_sub_of_hasDerivAt hd (hi1.add hi2)]
    simp
  have hval : (1 : ℂ) * (∫ t in (0 : ℝ)..1, k (a + (t : ℂ) * (z0 - a))) +
      (id z0 - a) * (∫ t in (0 : ℝ)..1, (t : ℂ) * deriv k (a + (t : ℂ) * (z0 - a))) = k z0 := by
    rw [← hftc, intervalIntegral.integral_add hi1 hi2, intervalIntegral.integral_const_mul]
    simp
  rw [hval] at hL
  exact hL

/-- A holomorphic function without zeros on an open ball has a holomorphic
square root on the ball, with a prescribed value at the centre. -/
theorem exists_sqrt_on_ball (a : ℂ) (R : ℝ) (hR : 0 < R) (h : ℂ → ℂ)
    (hh : DifferentiableOn ℂ h (ball a R)) (hne : ∀ z ∈ ball a R, h z ≠ 0)
    (s0 : ℂ) (hs0 : s0 ^ 2 = h a) :
    ∃ s : ℂ → ℂ, DifferentiableOn ℂ s (ball a R) ∧ s a = s0 ∧
      ∀ z ∈ ball a R, s z ^ 2 = h z := by
  have hdh : DifferentiableOn ℂ (deriv h) (ball a R) :=
    ((hh.analyticOnNhd isOpen_ball).deriv).differentiableOn
  have hk : DifferentiableOn ℂ (fun z => deriv h z / (2 * h z)) (ball a R) :=
    hdh.div (hh.const_mul 2) (fun z hz => mul_ne_zero two_ne_zero (hne z hz))
  obtain ⟨L, hLa, hL⟩ := exists_primitive_on_ball a R _ hk
  have ha : a ∈ ball a R := mem_ball_self hR
  -- the product `h * exp (-2 L)` has derivative zero, hence is constant
  have hΦ : ∀ z ∈ ball a R,
      HasDerivAt (fun z => h z * Complex.exp (-2 * L z)) 0 z := by
    intro z hz
    have h1 : HasDerivAt h (deriv h z) z :=
      (hh.differentiableAt (isOpen_ball.mem_nhds hz)).hasDerivAt
    have h2 : HasDerivAt (fun z => Complex.exp (-2 * L z))
        (Complex.exp (-2 * L z) * (-2 * (deriv h z / (2 * h z)))) z :=
      ((hL z hz).const_mul (-2 : ℂ)).cexp
    have h3 := h1.mul h2
    convert h3 using 1
    have := hne z hz
    field_simp
    ring
  have hconst : ∀ z ∈ ball a R, h z * Complex.exp (-2 * L z) = h a := by
    intro z hz
    have hd : DifferentiableOn ℂ (fun z => h z * Complex.exp (-2 * L z)) (ball a R) :=
      fun w hw => (hΦ w hw).differentiableAt.differentiableWithinAt
    have hz' : ∀ w ∈ ball a R,
        fderivWithin ℂ (fun z => h z * Complex.exp (-2 * L z)) (ball a R) w = 0 := by
      intro w hw
      rw [fderivWithin_of_isOpen isOpen_ball hw]
      have := (hΦ w hw).hasFDerivAt.fderiv
      rw [this]
      ext
      simp
    have := (convex_ball a R).is_const_of_fderivWithin_eq_zero hd hz' hz ha
    simpa [hLa] using this
  refine ⟨fun z => s0 * Complex.exp (L z), ?_, by simp [hLa], ?_⟩
  · intro z hz
    exact ((hL z hz).cexp.const_mul s0).differentiableAt.differentiableWithinAt
  · intro z hz
    have e1 : Complex.exp (-2 * L z) * Complex.exp (L z) ^ 2 = 1 := by
      rw [sq, ← Complex.exp_add, ← Complex.exp_add]
      have : -2 * L z + (L z + L z) = 0 := by ring
      rw [this, Complex.exp_zero]
    calc (s0 * Complex.exp (L z)) ^ 2 = h a * Complex.exp (L z) ^ 2 := by rw [mul_pow, hs0]
      _ = h z * (Complex.exp (-2 * L z) * Complex.exp (L z) ^ 2) := by
        rw [← hconst z hz]; ring
      _ = h z := by rw [e1, mul_one]

/-! ### The orbit of `0` for a parameter of the main cardioid -/

/-- Outside the disc of radius 2 the step does not come back, for `‖c‖ ≤ 1`. -/
theorem quad_step_norm_ge (c z : ℂ) (hc : ‖c‖ ≤ 1) (hz : 2 ≤ ‖z‖) : 2 ≤ ‖quad_step c z‖ := by
  unfold quad_step
  have h1 : ‖z * z‖ - ‖c‖ ≤ ‖z * z + c‖ := by
    have := norm_sub_le (z * z + c) c
    simp only [add_sub_cancel_right] at this
    linarith
  rw [norm_mul] at h1
  nlinarith [norm_nonneg z]

/-- Outside the disc of radius 2 no iterate comes back, for `‖c‖ ≤ 1`. -/
theorem quad_iterate_norm_ge (c z : ℂ) (hc : ‖c‖ ≤ 1) (hz : 2 ≤ ‖z‖) (n : ℕ) :
    2 ≤ ‖(quad_step c)^[n] z‖ := by
  induction n with
  | zero => simpa using hz
  | succ n ih =>
    rw [Function.iterate_succ_apply']
    exact quad_step_norm_ge c _ hc ih

/-- The parameter `c = μ/2 - μ^2/4` with `‖μ‖ < 1` has norm at most 1. -/
theorem cardioid_param_norm_le (μ : ℂ) (hμ : ‖μ‖ < 1) : ‖μ / 2 - μ ^ 2 / 4‖ ≤ 1 := by
  have h1 : ‖μ / 2 - μ ^ 2 / 4‖ ≤ ‖μ / 2‖ + ‖μ ^ 2 / 4‖ := norm_sub_le _ _
  have h2 : ‖μ / 2‖ = ‖μ‖ / 2 := by rw [norm_div]; norm_num
  have h3 : ‖μ ^ 2 / 4‖ = ‖μ‖ ^ 2 / 4 := by rw [norm_div, norm_pow]; norm_num
  rw [h2, h3] at h1
  nlinarith [norm_nonneg μ]

/-- The disc of radius `1 - ‖μ‖` around the fixed point `μ/2` is mapped into
itself. -/
theorem quad_step_mem_ball (μ z : ℂ) (hz : z ∈ ball (μ / 2) (1 - ‖μ‖)) :
    quad_step (μ / 2 - μ ^ 2 / 4) z ∈ ball (μ / 2) (1 - ‖μ‖) := by
  rw [mem_ball, dist_eq_norm] at *
  have e : quad_step (μ / 2 - μ ^ 2 / 4) z - μ / 2 = (z - μ / 2) * ((z - μ / 2) + μ) := by
    unfold quad_step; ring
  rw [e, norm_mul]
  have h1 : ‖(z - μ / 2) + μ‖ ≤ ‖z - μ / 2‖ + ‖μ‖ := norm_add_le _ _
  have h2 : ‖(z - μ / 2) + μ‖ ≤ 1 := by linarith
  calc ‖z - μ / 2‖ * ‖(z - μ / 2) + μ‖ ≤ ‖z - μ / 2‖ * 1 :=
        mul_le_mul_of_nonneg_left h2 (norm_nonneg _)
    _ = ‖z - μ / 2‖ := mul_one _
    _ < 1 - ‖μ‖ := hz

/-- All iterates of a point of the invariant disc stay in it. -/
theorem quad_iterate_mem_ball (μ z : ℂ) (hz : z ∈ ball (μ / 2) (1 - ‖μ‖))
    (n : ℕ) : (quad_step (μ / 2 - μ ^ 2 / 4))^[n] z ∈ ball (μ / 2) (1 - ‖μ‖) := by
  induction n with
  | zero => simpa using hz
  | succ n ih =>
    rw [Function.iterate_succ_apply']
    exact quad_step_mem_ball μ _ ih

/-- The invariant disc lies in the open unit disc. -/
theorem norm_lt_one_of_mem_ball (μ z : ℂ) (hz : z ∈ ball (μ / 2) (1 - ‖μ‖)) : ‖z‖ < 1 := by
  rw [mem_ball, dist_eq_norm] at hz
  have h1 : ‖z‖ ≤ ‖z - μ / 2‖ + ‖μ / 2‖ := by
    have := norm_add_le (z - μ / 2) (μ / 2)
    simpa using this
  have h2 : ‖μ / 2‖ = ‖μ‖ / 2 := by rw [norm_div]; norm_num
  rw [h2] at h1
  linarith [norm_nonneg μ]

/-- If the orbit of `0` avoids the invariant disc, the `n`-th iterate has a
holomorphic inverse branch on the disc that fixes the fixed point. -/
theorem exists_inverse_branch (μ : ℂ) (hμ : ‖μ‖ < 1)
    (hesc : ∀ j : ℕ, (quad_step (μ / 2 - μ ^ 2 / 4))^[j] 0 ∉ ball (μ / 2) (1 - ‖μ‖)) (n : ℕ) :
    ∃ g : ℂ → ℂ, DifferentiableOn ℂ g (ball (μ / 2) (1 - ‖μ‖)) ∧ g (μ / 2) = μ / 2 ∧
      ∀ w ∈ ball (μ / 2) (1 - ‖μ‖), (quad_step (μ / 2 - μ ^ 2 / 4))^[n] (g w) = w := by
  have hR : 0 < 1 - ‖μ‖ := by linarith
  induction n with
  | zero => exact ⟨id, differentiableOn_id, rfl, fun w _ => rfl⟩
  | succ n ih =>
    obtain ⟨g, hg, hgα, hgn⟩ := ih
    have hne : ∀ w ∈ ball (μ / 2) (1 - ‖μ‖), g w - (μ / 2 - μ ^ 2 / 4) ≠ 0 := by
      intro w hw h0
      have hgw : g w = μ / 2 - μ ^ 2 / 4 := sub_eq_zero.mp h0
      apply hesc (n + 1)
      rw [Function.iterate_succ_apply]
      have : quad_step (μ / 2 - μ ^ 2 / 4) 0 = g w := by rw [hgw]; simp [quad_step]
      rw [this, hgn w hw]
      exact hw
    have hs0 : (μ / 2) ^ 2 = g (μ / 2) - (μ / 2 - μ ^ 2 / 4) := by rw [hgα]; ring
    obtain ⟨s, hs, hsα, hsq⟩ := exists_sqrt_on_ball (μ / 2) (1 - ‖μ‖) hR
      (fun w => g w - (μ / 2 - μ ^ 2 / 4)) (hg.sub_const _) hne (μ / 2) hs0
    refine ⟨s, hs, hsα, fun w hw => ?_⟩
    rw [Function.iterate_succ_apply]
    have : quad_step (μ / 2 - μ ^ 2 / 4) (s w) = g w := by
      have := hsq w hw
      unfold quad_step
      rw [← sq, this]
      ring
    rw [this, hgn w hw]

/-- For `‖μ‖ < 1` the orbit of `0` under `x ↦ x * x + c` with `c = μ/2 - μ^2/4`
stays in the open disc of radius 2. -/
theorem cardioid_orbit_bounded (μ : ℂ) (hμ : ‖μ‖ < 1) (n : ℕ) :
    ‖(quad_step (μ / 2 - μ ^ 2 / 4))^[n] 0‖ < 2 := by
  by_contra hcon
  push_neg at hcon
  have hc := cardioid_param_norm_le μ hμ
  have hR : 0 < 1 - ‖μ‖ := by linarith
  set c : ℂ := μ / 2 - μ ^ 2 / 4 with hcdef
  -- the orbit of `0` never enters the invariant disc
  have hesc : ∀ j : ℕ, (quad_step c)^[j] 0 ∉ ball (μ / 2) (1 - ‖μ‖) := by
    intro j hj
    have h1 := quad_iterate_mem_ball μ _ hj n
    rw [← Function.iterate_add_apply] at h1
    have h2 := quad_iterate_norm_ge c _ hc hcon j
    rw [← Function.iterate_add_apply, add_comm] at h2
    have h3 := norm_lt_one_of_mem_ball μ _ h1
    linarith
  have hμ0 : μ ≠ 0 := by
    intro h0
    apply hesc 0
    simp [h0]
  have hμpos : 0 < ‖μ‖ := norm_pos_iff.mpr hμ0
  obtain ⟨N, hN⟩ := pow_unbounded_of_one_lt (3 / (1 - ‖μ‖)) (one_lt_inv₀ hμpos |>.mpr hμ)
  obtain ⟨g, hg, hgα, hgN⟩ := exists_inverse_branch μ hμ hesc N
  have hαU : μ / 2 ∈ ball (μ / 2) (1 - ‖μ‖) := mem_ball_self hR
  -- derivative of the iterate at the fixed point
  have hfix : quad_step c (μ / 2) = μ / 2 := by rw [hcdef]; unfold quad_step; ring
  have hstep : HasDerivAt (quad_step c) μ (μ / 2) := by
    have h1 := ((hasDerivAt_id (μ / 2)).mul (hasDerivAt_id (μ / 2))).add_const c
    have e : (1 : ℂ) * id (μ / 2) + id (μ / 2) * 1 = μ := by simp only [id]; ring
    rw [e] at h1
    exact h1
  have hiter : HasDerivAt (quad_step c)^[N] (μ ^ N) (μ / 2) := HasDerivAt.iterate (μ / 2) hstep hfix N
  have hgd : HasDerivAt g (deriv g (μ / 2)) (μ / 2) :=
    (hg.differentiableAt (isOpen_ball.mem_nhds hαU)).hasDerivAt
  have hiter' : HasDerivAt (quad_step c)^[N] (μ ^ N) (g (μ / 2)) := by rw [hgα]; exact hiter
  have hcomp : HasDerivAt ((quad_step c)^[N] ∘ g) (μ ^ N * deriv g (μ / 2)) (μ / 2) :=
    hiter'.comp (μ / 2) hgd
  have hid : HasDerivAt ((quad_step c)^[N] ∘ g) 1 (μ / 2) := by
    apply (hasDerivAt_id (μ / 2)).congr_of_eventuallyEq
    filter_upwards [isOpen_ball.mem_nhds hαU] with w hw
    simp [Function.comp, hgN w hw]
  have hone : μ ^ N * deriv g (μ / 2) = 1 := hcomp.unique hid
  -- the inverse branch is bounded, so its derivative is bounded
  have hmaps : MapsTo g (ball (μ / 2) (1 - ‖μ‖)) (ball (g (μ / 2)) 3) := by
    intro w hw
    have hw1 := norm_lt_one_of_mem_ball μ w hw
    have hgw : ‖g w‖ < 2 := by
      by_contra h2
      push_neg at h2
      have := quad_iterate_norm_ge c _ hc h2 N
      rw [hgN w hw] at this
      linarith
    rw [mem_ball, dist_eq_norm, hgα]
    have h1 : ‖g w - μ / 2‖ ≤ ‖g w‖ + ‖μ / 2‖ := norm_sub_le _ _
    have h2 : ‖μ / 2‖ = ‖μ‖ / 2 := by rw [norm_div]; norm_num
    rw [h2] at h1
    linarith
  have hschwarz : ‖deriv g (μ / 2)‖ ≤ 3 / (1 - ‖μ‖) :=
    Complex.norm_deriv_le_div_of_mapsTo_ball hg hmaps hR
  have hnorm : ‖μ‖ ^ N * ‖deriv g (μ / 2)‖ = 1 := by
    rw [← norm_pow, ← norm_mul, hone, norm_one]
  have hpow : 0 < ‖μ‖ ^ N := pow_pos hμpos N
  have h4 : ‖deriv g (μ / 2)‖ = (‖μ‖ ^ N)⁻¹ := eq_inv_of_mul_eq_one_right hnorm
  rw [inv_pow, ← h4] at hN
  linarith


/-! ### The quick test and the loop agree -/

/-- The loop body of the model is `quad_step` on the denoted complex
numbers. -/
theorem toComplex_step (c x : cplx ℝ) :
    toComplex (cadd (cmul x x) c) = quad_step (toComplex c) (toComplex x) := by
  apply Complex.ext <;> simp [toComplex, cadd, cmul, quad_step]

/-- The orbit of the model is the orbit of `0` under `quad_step`. -/
theorem toComplex_orbit (c : cplx ℝ) (n : ℕ) :
    toComplex (orbit c n) = (quad_step (toComplex c))^[n] 0 := by
  induction n with
  | zero => apply Complex.ext <;> simp [orbit, czero, toComplex]
  | succ n ih =>
    rw [Function.iterate_succ_apply', ← ih, orbit, toComplex_step]

/-- The squared form of the escape test is the test `cabs(x) >= 2` on the
modulus. -/
theorem cabs_ge_two_iff (x : cplx ℝ) : cabs_ge_two x ↔ 2 ≤ Complex.abs (toComplex x) := by
  have h1 : cabs_sq x = Complex.abs (toComplex x) ^ 2 := by
    rw [Complex.sq_abs, Complex.normSq_apply]
    rfl
  unfold cabs_ge_two
  rw [h1]
  have h0 : 0 ≤ Complex.abs (toComplex x) := Complex.abs.nonneg _
  constructor
  · intro h
    nlinarith
  · intro h
    nlinarith

/-- The loop runs to the end when no iterate meets the escape test. -/
theorem escape_loop_eq_budget {K : Type} [LinearOrderedField K] (c : cplx K) (k i m : ℕ)
    (h : ∀ j, j < k → ¬ cabs_ge_two (orbit c (m + j + 1))) :
    escape_loop c k i (orbit c m) = MAX_TESTS := by
  induction k generalizing i m with
  | zero => rfl
  | succ k ih =>
    have h0 : ¬ cabs_ge_two (cadd (cmul (orbit c m) (orbit c m)) c) := h 0 (Nat.succ_pos k)
    rw [escape_loop, if_neg h0]
    have e : cadd (cmul (orbit c m) (orbit c m)) c = orbit c (m + 1) := rfl
    rw [e]
    apply ih
    intro j hj
    have := h (j + 1) (Nat.succ_lt_succ hj)
    have e2 : m + (j + 1) + 1 = m + 1 + j + 1 := by omega
    rw [e2] at this
    exact this

/-- A parameter that passes the quick test is `μ/2 - μ^2/4` for some `μ` in
the open unit disc: it lies inside the main cardioid. -/
theorem cardioid_test_param (c : cplx ℝ) (h : cardioid_test c) :
    ∃ μ : ℂ, ‖μ‖ < 1 ∧ toComplex c = μ / 2 - μ ^ 2 / 4 := by
  obtain ⟨s0, hs0⟩ := IsAlgClosed.exists_pow_nat_eq (1 - 4 * toComplex c) (by norm_num : 0 < 2)
  -- a square root of `1 - 4c` with non-negative real part
  obtain ⟨s, hs, hre⟩ : ∃ s : ℂ, s ^ 2 = 1 - 4 * toComplex c ∧ 0 ≤ s.re := by
    rcases le_total 0 s0.re with h0 | h0
    · exact ⟨s0, hs0, h0⟩
    · exact ⟨-s0, by rw [neg_sq, hs0], by simpa using h0⟩
  refine ⟨1 - s, ?_, ?_⟩
  · have hc : toComplex c = (1 - s ^ 2) / 4 := by rw [hs]; ring
    have hcre : c.re = (1 - (s.re * s.re - s.im * s.im)) / 4 := by
      have := congrArg Complex.re hc
      simpa [toComplex, sq, Complex.div_re, Complex.normSq] using this
    have hcim : c.im = -(s.re * s.im + s.im * s.re) / 4 := by
      have := congrArg Complex.im hc
      simp only [toComplex] at this
      rw [this]
      simp [sq, Complex.div_im, Complex.normSq]
    have hcard : (c.re * c.re + c.im * c.im) * (8 * (c.re * c.re + c.im * c.im) - 3)
        < 3 / 32 - c.re := by
      have := h
      simp only [cardioid_test, creal, cmul, conj] at this
      have e : c.re * c.re - c.im * -c.im = c.re * c.re + c.im * c.im := by ring
      rw [e] at this
      exact this
    set u := s.re with hu
    set v := s.im with hv
    -- `p = |1 - s|^2`, `q = |1 + s|^2`
    have hfac : 32 * ((c.re * c.re + c.im * c.im) * (8 * (c.re * c.re + c.im * c.im) - 3)
        - (3 / 32 - c.re)) =
        (((1 - u) ^ 2 + v ^ 2) - 1) * (((1 + u) ^ 2 + v ^ 2) - 1) *
          (((1 - u) ^ 2 + v ^ 2) * ((1 + u) ^ 2 + v ^ 2) + ((1 - u) ^ 2 + v ^ 2)
            + ((1 + u) ^ 2 + v ^ 2) - 3) := by
      rw [hcre, hcim]; ring
    have hp : (1 - u) ^ 2 + v ^ 2 < 1 := by
      by_contra hcon
      push_neg at hcon
      have hq : 1 ≤ (1 + u) ^ 2 + v ^ 2 := by nlinarith
      have h3 : 0 ≤ ((1 - u) ^ 2 + v ^ 2) * ((1 + u) ^ 2 + v ^ 2) + ((1 - u) ^ 2 + v ^ 2)
            + ((1 + u) ^ 2 + v ^ 2) - 3 := by nlinarith
      have h4 : 0 ≤ (((1 - u) ^ 2 + v ^ 2) - 1) * (((1 + u) ^ 2 + v ^ 2) - 1) *
          (((1 - u) ^ 2 + v ^ 2) * ((1 + u) ^ 2 + v ^ 2) + ((1 - u) ^ 2 + v ^ 2)
            + ((1 + u) ^ 2 + v ^ 2) - 3) :=
        mul_nonneg (mul_nonneg (by linarith) (by linarith)) h3
      linarith
    have hn : Complex.abs (1 - s) ^ 2 < 1 := by
      rw [Complex.sq_abs, Complex.normSq_apply]
      simp only [Complex.sub_re, Complex.one_re, Complex.sub_im, Complex.one_im, zero_sub]
      rw [← hu, ← hv]
      nlinarith
    rw [Complex.norm_eq_abs]
    have h0 : 0 ≤ Complex.abs (1 - s) := Complex.abs.nonneg _
    nlinarith
  · have : 4 * toComplex c = 1 - s ^ 2 := by rw [hs]; ring
    linear_combination (1 / 4 : ℂ) * this

/-- C1: for every `c` (over the exact reals) that passes the quick test of
`mandelbrot_test`, no iterate of the loop meets `|x| >= 2`, so the loop run
without the quick test also returns `MAX_TESTS = 2000`, and
`mandelbrot_test` and its variant without the quick test agree. -/
theorem cardioid_short_circuit_agrees (c : cplx ℝ) (h : cardioid_test c) :
    (∀ i : ℕ, ¬ cabs_ge_two (orbit c i)) ∧
    mandelbrot_test_full c = 2000 ∧
    mandelbrot_test_full c = mandelbrot_test c := by
  obtain ⟨μ, hμ, hc⟩ := cardioid_test_param c h
  have hb : ∀ i : ℕ, ¬ cabs_ge_two (orbit c i) := by
    intro i hi
    rw [cabs_ge_two_iff, toComplex_orbit, hc] at hi
    have := cardioid_orbit_bounded μ hμ i
    rw [Complex.norm_eq_abs] at this
    linarith
  have hfull : mandelbrot_test_full c = MAX_TESTS :=
    escape_loop_eq_budget c (MAX_TESTS - 1) 1 0 (fun j _ => hb _)
  refine ⟨hb, hfull, ?_⟩
  rw [hfull, mandelbrot_test, if_pos h]

/-- Witness of C1 at `c = -1/2 + (1/4) i`, which passes the quick test. -/
theorem cardioid_short_circuit_agrees_witness :
    (∀ i : ℕ, ¬ cabs_ge_two (orbit (⟨-1 / 2, 1 / 4⟩ : cplx ℝ) i)) ∧
    mandelbrot_test_full (⟨-1 / 2, 1 / 4⟩ : cplx ℝ) = 2000 ∧
    mandelbrot_test_full (⟨-1 / 2, 1 / 4⟩ : cplx ℝ) =
      mandelbrot_test (⟨-1 / 2, 1 / 4⟩ : cplx ℝ) :=
  cardioid_short_circuit_agrees ⟨-1 / 2, 1 / 4⟩ (by
    simp only [cardioid_test, creal, cmul, conj]
    norm_num)

end CardioidOrbit

/-! ### Argument checks of `image_meta_gen` -/

/-- C11 fails on the code: `mandelbrot -f out.ppm -h -2000000000` gives `atoi`
the value `-2000000000`, below 30, yet `image_meta_gen` returns a descriptor:
the assignment to the `unsigned int` height turns the value into
`2294967296`, which passes the test `image.height < 30`. -/
theorem image_meta_gen_negative_height :
    atoi "-2000000000" = -2000000000 ∧ atoi "-2000000000" < 30 ∧
    image_meta_gen ["mandelbrot", "-f", "out.ppm", "-h", "-2000000000"] =
      Except.ok wrapped_height_image ∧
    wrapped_height_image.height = 2294967296 := by
  refine ⟨?_, ?_, ?_, rfl⟩
  · simp [atoi, strip_sign, isspace, isdigit, digits_value, to_int]
  · simp [atoi, strip_sign, isspace, isdigit, digits_value, to_int]
  · simp [image_meta_gen, getopt_scan, optstring_chars, option_loop, apply_option,
      image_meta_init, atoi, strip_sign, isspace, isdigit, digits_value,
      normalise_bounds, to_uint, to_int, double_to_uint, trunc, wrapped_height_image]
    norm_num
    rfl

/-- A height below 30 after the option loop is rejected. -/
theorem image_meta_gen_small_height {K : Type} [LinearOrderedField K] [FloorRing K]
    (argv : List String) (parsed : image_meta K)
    (hp : option_loop image_meta_init (getopt_scan argv.tail) = Except.ok parsed)
    (hh : parsed.height < 30) :
    image_meta_gen argv = (Except.error ARG_ERROR : Except ℤ (image_meta K)) ∨
      image_meta_gen argv = (Except.error SIZE_ERROR : Except ℤ (image_meta K)) := by
  unfold image_meta_gen
  rw [hp]
  simp only
  split_ifs with h1
  · exact Or.inl rfl
  · exact Or.inr rfl

/-- C12: the request with height 30 and the bounds `-2.0`, `0.8`, `-1.2`,
`1.2` (left to the defaults or given as options) yields the width
`30 * 2.8 / 2.4 = 35`, and the header written for that descriptor is
`P6 35 30 255` followed by a newline. -/
theorem default_request_width_header :
    image_meta_gen ["mandelbrot", "-f", "out.ppm", "-h", "30"] = Except.ok small_image ∧
    image_meta_gen ["mandelbrot", "-f", "out.ppm", "-h", "30", "-n", "-2.0", "-v", "0.8",
      "-b", "-1.2", "-t", "1.2"] = Except.ok small_image ∧
    small_image.height = 30 ∧ small_image.width = 35 ∧
    (30 * (4 / 5 - (-2)) / (6 / 5 - (-(6 / 5))) : ℚ) = 35 ∧
    header small_image = "P6 35 30 255\n" := by
  refine ⟨?_, ?_, rfl, rfl, by norm_num, by decide⟩
  · simp [image_meta_gen, getopt_scan, optstring_chars, option_loop, apply_option,
      image_meta_init, atoi, strip_sign, isspace, isdigit, digits_value,
      normalise_bounds, to_uint, to_int, double_to_uint, trunc, small_image]
    norm_num
    rfl
  · simp [image_meta_gen, getopt_scan, optstring_chars, option_loop, apply_option,
      image_meta_init, atoi, atof, exponent_value, strip_sign, isspace, isdigit, digits_value,
      normalise_bounds, to_uint, to_int, double_to_uint, trunc, small_image]
    norm_num
    rfl

/-- C14 fails on the code: `mandelbrot -h 100 -t 1` has no `-f`, yet
`argc` is 5, so every check passes and the descriptor returned has the file
name `NULL`. -/
theorem image_meta_gen_missing_file_name :
    image_meta_gen ["mandelbrot", "-h", "100", "-t", "1"] = Except.ok nameless_image ∧
    nameless_image.file_name = none := by
  refine ⟨?_, rfl⟩
  simp [image_meta_gen, getopt_scan, optstring_chars, option_loop, apply_option,
    image_meta_init, atoi, atof, exponent_value, strip_sign, isspace, isdigit, digits_value,
    normalise_bounds, to_uint, to_int, double_to_uint, trunc, nameless_image]
  norm_num
  rfl

/-! ### Order of the bounds -/

/-- With two distinct bounds on each axis, `normalise_bounds` puts the smaller
one in `min` and the larger one in `max`. -/
theorem normalise_bounds_of_ne {K : Type} [LinearOrderedField K] [FloorRing K]
    (image : image_meta K) (hx : image.xmax ≠ image.xmin) (hy : image.ymax ≠ image.ymin) :
    normalise_bounds image =
      { height := image.height
        width := double_to_uint ((image.height : K) *
          (max image.xmin image.xmax - min image.xmin image.xmax) /
          (max image.ymin image.ymax - min image.ymin image.ymax))
        ymax := max image.ymin image.ymax
        ymin := min image.ymin image.ymax
        xmax := max image.xmin image.xmax
        xmin := min image.xmin image.xmax
        file_name := image.file_name } := by
  unfold normalise_bounds
  simp only [if_neg hx, if_neg hy]
  rcases lt_or_ge image.xmax image.xmin with h1 | h1 <;>
    rcases lt_or_ge image.ymax image.ymin with h2 | h2
  · rw [if_pos h1, if_pos h2]
    simp [min_eq_right h1.le, max_eq_left h1.le, min_eq_right h2.le, max_eq_left h2.le]
  · rw [if_pos h1, if_neg (not_lt.mpr h2)]
    simp [min_eq_right h1.le, max_eq_left h1.le, min_eq_left h2, max_eq_right h2]
  · rw [if_neg (not_lt.mpr h1), if_pos h2]
    simp [min_eq_left h1, max_eq_right h1, min_eq_right h2.le, max_eq_left h2.le]
  · rw [if_neg (not_lt.mpr h1), if_neg (not_lt.mpr h2)]
    simp [min_eq_left h1, max_eq_right h1, min_eq_left h2, max_eq_right h2]

/-- Exchanging the two bounds of the real axis does not change the result of
`normalise_bounds`. -/
theorem normalise_bounds_swap_x {K : Type} [LinearOrderedField K] [FloorRing K]
    (image : image_meta K) (a b c d : K) (hab : a ≠ b) (hcd : c ≠ d) :
    normalise_bounds { image with xmin := b, xmax := a, ymin := c, ymax := d } =
      normalise_bounds { image with xmin := a, xmax := b, ymin := c, ymax := d } := by
  rw [normalise_bounds_of_ne _ (show a ≠ b from hab) (show d ≠ c from hcd.symm),
    normalise_bounds_of_ne _ (show b ≠ a from hab.symm) (show d ≠ c from hcd.symm)]
  simp only [min_comm b a, max_comm b a]

/-- Exchanging the two bounds of the imaginary axis does not change the
result of `normalise_bounds`. -/
theorem normalise_bounds_swap_y {K : Type} [LinearOrderedField K] [FloorRing K]
    (image : image_meta K) (a b c d : K) (hab : a ≠ b) (hcd : c ≠ d) :
    normalise_bounds { image with xmin := a, xmax := b, ymin := d, ymax := c } =
      normalise_bounds { image with xmin := a, xmax := b, ymin := c, ymax := d } := by
  rw [normalise_bounds_of_ne _ (show b ≠ a from hab.symm) (show c ≠ d from hcd),
    normalise_bounds_of_ne _ (show b ≠ a from hab.symm) (show d ≠ c from hcd.symm)]
  simp only [min_comm d c, max_comm d c]

/-- The descriptor `image_meta_gen` produces for the options `-f`, `-h`, `-n`,
`-v`, `-b`, `-t` given in this order. -/
theorem image_meta_gen_all_options {K : Type} [LinearOrderedField K] [FloorRing K]
    (p f h sn sv sb st : String) :
    (image_meta_gen [p, "-f", f, "-h", h, "-n", sn, "-v", sv, "-b", sb, "-t", st] :
        Except ℤ (image_meta K)) =
      if to_uint (atoi h) < 30 then Except.error SIZE_ERROR
      else Except.ok (normalise_bounds
        { height := to_uint (atoi h), width := 0, ymax := ((atof st : ℚ) : K),
          ymin := ((atof sb : ℚ) : K), xmax := ((atof sv : ℚ) : K),
          xmin := ((atof sn : ℚ) : K), file_name := some f }) := by
  simp [image_meta_gen, getopt_scan, optstring_chars, option_loop, apply_option,
    image_meta_init]

/-- C13: the bound normalisation of `image_meta_gen` is order-insensitive.  For
every descriptor state (any height and file name) and all `a ≠ b`, `c ≠ d`,
the result for the bounds `(xmin, xmax, ymin, ymax) = (a, b, c, d)` is also
the result for the bounds with `a, b` exchanged, with `c, d` exchanged, and
with both exchanged; and `image_meta_gen` returns the same for argument lists
that give the values of `-n`, `-v` and of `-b`, `-t` in either order. -/
theorem normalise_bounds_order_insensitive {K : Type} [LinearOrderedField K] [FloorRing K]
    (image : image_meta K) (a b c d : K) (p f h sa sb sc sd : String)
    (hab : a ≠ b) (hcd : c ≠ d) (hsab : atof sa ≠ atof sb) (hscd : atof sc ≠ atof sd) :
    (normalise_bounds { image with xmin := b, xmax := a, ymin := c, ymax := d } =
      normalise_bounds { image with xmin := a, xmax := b, ymin := c, ymax := d } ∧
    normalise_bounds { image with xmin := a, xmax := b, ymin := d, ymax := c } =
      normalise_bounds { image with xmin := a, xmax := b, ymin := c, ymax := d } ∧
    normalise_bounds { image with xmin := b, xmax := a, ymin := d, ymax := c } =
      normalise_bounds { image with xmin := a, xmax := b, ymin := c, ymax := d }) ∧
    ((image_meta_gen [p, "-f", f, "-h", h, "-n", sb, "-v", sa, "-b", sc, "-t", sd] :
        Except ℤ (image_meta K)) =
      image_meta_gen [p, "-f", f, "-h", h, "-n", sa, "-v", sb, "-b", sc, "-t", sd] ∧
    (image_meta_gen [p, "-f", f, "-h", h, "-n", sa, "-v", sb, "-b", sd, "-t", sc] :
        Except ℤ (image_meta K)) =
      image_meta_gen [p, "-f", f, "-h", h, "-n", sa, "-v", sb, "-b", sc, "-t", sd] ∧
    (image_meta_gen [p, "-f", f, "-h", h, "-n", sb, "-v", sa, "-b", sd, "-t", sc] :
        Except ℤ (image_meta K)) =
      image_meta_gen [p, "-f", f, "-h", h, "-n", sa, "-v", sb, "-b", sc, "-t", sd]) := by
  have hx := normalise_bounds_swap_x image a b c d hab hcd
  have hy := normalise_bounds_swap_y image a b c d hab hcd
  have hxy : normalise_bounds { image with xmin := b, xmax := a, ymin := d, ymax := c } =
      normalise_bounds { image with xmin := a, xmax := b, ymin := c, ymax := d } := by
    rw [normalise_bounds_swap_x image a b d c hab hcd.symm]
    exact hy
  have hA : ((atof sa : ℚ) : K) ≠ ((atof sb : ℚ) : K) := fun e => hsab (Rat.cast_injective e)
  have hC : ((atof sc : ℚ) : K) ≠ ((atof sd : ℚ) : K) := fun e => hscd (Rat.cast_injective e)
  refine ⟨⟨hx, hy, hxy⟩, ?_, ?_, ?_⟩
  · rw [image_meta_gen_all_options, image_meta_gen_all_options]
    have := normalise_bounds_swap_x
      ({ height := to_uint (atoi h), width := 0, ymax := 0, ymin := 0, xmax := 0, xmin := 0,
         file_name := some f } : image_meta K) _ _ _ _ hA hC
    simp only at this
    rw [this]
  · rw [image_meta_gen_all_options, image_meta_gen_all_options]
    have := normalise_bounds_swap_y
      ({ height := to_uint (atoi h), width := 0, ymax := 0, ymin := 0, xmax := 0, xmin := 0,
         file_name := some f } : image_meta K) _ _ _ _ hA hC
    simp only at this
    rw [this]
  · rw [image_meta_gen_all_options, image_meta_gen_all_options]
    have h1 := normalise_bounds_swap_x
      ({ height := to_uint (atoi h), width := 0, ymax := 0, ymin := 0, xmax := 0, xmin := 0,
         file_name := some f } : image_meta K) _ _ _ _ hA hC.symm
    have h2 := normalise_bounds_swap_y
      ({ height := to_uint (atoi h), width := 0, ymax := 0, ymin := 0, xmax := 0, xmin := 0,
         file_name := some f } : image_meta K) _ _ _ _ hA hC
    simp only at h1 h2
    rw [h1, h2]

/-- Witness of C13: a descriptor state of height 30 with the bounds `0, 1` on
the real axis and `0, 2` on the imaginary axis, and the corresponding
arguments. -/
theorem normalise_bounds_order_insensitive_witness :
    (normalise_bounds ({ small_image with xmin := 1, xmax := 0, ymin := 0, ymax := 2 } : image_meta ℚ) =
      normalise_bounds ({ small_image with xmin := 0, xmax := 1, ymin := 0, ymax := 2 } : image_meta ℚ) ∧
    normalise_bounds ({ small_image with xmin := 0, xmax := 1, ymin := 2, ymax := 0 } : image_meta ℚ) =
      normalise_bounds ({ small_image with xmin := 0, xmax := 1, ymin := 0, ymax := 2 } : image_meta ℚ) ∧
    normalise_bounds ({ small_image with xmin := 1, xmax := 0, ymin := 2, ymax := 0 } : image_meta ℚ) =
      normalise_bounds ({ small_image with xmin := 0, xmax := 1, ymin := 0, ymax := 2 } : image_meta ℚ)) ∧
    ((image_meta_gen ["mandelbrot", "-f", "out.ppm", "-h", "30", "-n", "1", "-v", "0",
        "-b", "0", "-t", "2"] : Except ℤ (image_meta ℚ)) =
      image_meta_gen ["mandelbrot", "-f", "out.ppm", "-h", "30", "-n", "0", "-v", "1",
        "-b", "0", "-t", "2"] ∧
    (image_meta_gen ["mandelbrot", "-f", "out.ppm", "-h", "30", "-n", "0", "-v", "1",
        "-b", "2", "-t", "0"] : Except ℤ (image_meta ℚ)) =
      image_meta_gen ["mandelbrot", "-f", "out.ppm", "-h", "30", "-n", "0", "-v", "1",
        "-b", "0", "-t", "2"] ∧
    (image_meta_gen ["mandelbrot", "-f", "out.ppm", "-h", "30", "-n", "1", "-v", "0",
        "-b", "2", "-t", "0"] : Except ℤ (image_meta ℚ)) =
      image_meta_gen ["mandelbrot", "-f", "out.ppm", "-h", "30", "-n", "0", "-v", "1",
        "-b", "0", "-t", "2"]) :=
  normalise_bounds_order_insensitive small_image 0 1 0 2 "mandelbrot" "out.ppm" "30"
    "0" "1" "0" "2" (by norm_num) (by norm_num)
    (by simp [atof, exponent_value, strip_sign, isspace, isdigit, digits_value])
    (by simp [atof, exponent_value, strip_sign, isspace, isdigit, digits_value])

/-! ### The value returned by `mandelbrot_test` -/

/-- The loop returns the index of the first iterate that meets the escape
test. -/
theorem escape_loop_eq_first {K : Type} [LinearOrderedField K] (c : cplx K) (k i m j : ℕ)
    (hj : j < k) (hlt : ∀ l, l < j → ¬ cabs_ge_two (orbit c (m + l + 1)))
    (hesc : cabs_ge_two (orbit c (m + j + 1))) :
    escape_loop c k i (orbit c m) = i + j := by
  induction k generalizing i m j with
  | zero => omega
  | succ k ih =>
    have e : cadd (cmul (orbit c m) (orbit c m)) c = orbit c (m + 1) := rfl
    rw [escape_loop, e]
    cases j with
    | zero => rw [if_pos hesc]; rfl
    | succ j =>
      have h0 : ¬ cabs_ge_two (orbit c (m + 1)) := hlt 0 (Nat.succ_pos j)
      rw [if_neg h0]
      have e1 : m + (j + 1) + 1 = m + 1 + j + 1 := by omega
      rw [e1] at hesc
      rw [ih (i + 1) (m + 1) j (by omega) ?_ hesc]
      · omega
      · intro l hl
        have := hlt (l + 1) (by omega)
        have e2 : m + (l + 1) + 1 = m + 1 + l + 1 := by omega
        rw [e2] at this
        exact this

/-- The value of `mandelbrot_test` over any ordered field, with the escape
test in the squared form of the model. -/
theorem mandelbrot_test_first_escape {K : Type} [LinearOrderedField K] (c : cplx K) :
    1 ≤ mandelbrot_test c ∧ mandelbrot_test c ≤ MAX_TESTS ∧
    (mandelbrot_test c < MAX_TESTS ↔
      ¬ cardioid_test c ∧ ∃ i, 1 ≤ i ∧ i ≤ MAX_TESTS - 1 ∧ cabs_ge_two (orbit c i)) ∧
    (mandelbrot_test c < MAX_TESTS →
      cabs_ge_two (orbit c (mandelbrot_test c)) ∧
      ∀ j, 1 ≤ j → j < mandelbrot_test c → ¬ cabs_ge_two (orbit c j)) := by
  have hM : MAX_TESTS = 2000 := rfl
  by_cases hcard : cardioid_test c
  · have hr : mandelbrot_test c = MAX_TESTS := by rw [mandelbrot_test, if_pos hcard]
    rw [hr]
    refine ⟨by omega, le_rfl, ?_, ?_⟩
    · constructor
      · intro h; omega
      · intro h; exact absurd hcard h.1
    · intro h; omega
  · have hr : mandelbrot_test c = escape_loop c (MAX_TESTS - 1) 1 (orbit c 0) := by
      rw [mandelbrot_test, if_neg hcard]; rfl
    by_cases hex : ∃ i, 1 ≤ i ∧ i ≤ MAX_TESTS - 1 ∧ cabs_ge_two (orbit c i)
    · classical
      have hspec := Nat.find_spec hex
      have hmin : ∀ l, l < Nat.find hex →
          ¬ (1 ≤ l ∧ l ≤ MAX_TESTS - 1 ∧ cabs_ge_two (orbit c l)) :=
        fun l hl => Nat.find_min hex hl
      obtain ⟨h1, h2, h3⟩ := hspec
      have hval : mandelbrot_test c = Nat.find hex := by
        rw [hr, escape_loop_eq_first c (MAX_TESTS - 1) 1 0 (Nat.find hex - 1) (by omega)]
        · omega
        · intro l hl hc
          have e : 0 + l + 1 = l + 1 := by omega
          rw [e] at hc
          exact hmin (l + 1) (by omega) ⟨by omega, by omega, hc⟩
        · have e : 0 + (Nat.find hex - 1) + 1 = Nat.find hex := by omega
          rw [e]
          exact h3
      rw [hval]
      refine ⟨h1, by omega, ?_, ?_⟩
      · constructor
        · intro _; exact ⟨hcard, hex⟩
        · intro _; omega
      · intro _
        refine ⟨h3, fun j hj1 hj2 hc => ?_⟩
        exact hmin j hj2 ⟨hj1, by omega, hc⟩
    · have hval : mandelbrot_test c = MAX_TESTS := by
        rw [hr]
        apply escape_loop_eq_budget
        intro j hj hc
        apply hex
        exact ⟨0 + j + 1, by omega, by omega, hc⟩
      rw [hval]
      refine ⟨by omega, le_rfl, ?_, ?_⟩
      · constructor
        · intro h; omega
        · intro h; exact absurd h.2 hex
      · intro h; omega

/-- C15: for every complex `c` over the exact reals, with the orbit `x_0 = 0`,
`x_{k+1} = x_k^2 + c`, the value `r` of `mandelbrot_test c` satisfies
`1 <= r <= MAX_TESTS`; `r < MAX_TESTS` holds exactly when `c` fails the
cardioid test and some `i` in `1 .. MAX_TESTS - 1` has `|x_i| >= 2`, and then
`r` is the least such `i`; otherwise `r = MAX_TESTS`. -/
theorem mandelbrot_test_characterisation (c : cplx ℝ) :
    1 ≤ mandelbrot_test c ∧ mandelbrot_test c ≤ MAX_TESTS ∧
    (mandelbrot_test c < MAX_TESTS ↔
      ¬ cardioid_test c ∧
        ∃ i, 1 ≤ i ∧ i ≤ MAX_TESTS - 1 ∧ 2 ≤ Complex.abs (toComplex (orbit c i))) ∧
    (mandelbrot_test c < MAX_TESTS →
      2 ≤ Complex.abs (toComplex (orbit c (mandelbrot_test c))) ∧
      ∀ j, 1 ≤ j → j < mandelbrot_test c → Complex.abs (toComplex (orbit c j)) < 2) ∧
    (¬ (¬ cardioid_test c ∧
        ∃ i, 1 ≤ i ∧ i ≤ MAX_TESTS - 1 ∧ 2 ≤ Complex.abs (toComplex (orbit c i))) →
      mandelbrot_test c = MAX_TESTS) := by
  obtain ⟨h1, h2, h3, h4⟩ := mandelbrot_test_first_escape c
  simp only [cabs_ge_two_iff, not_le] at h3 h4
  refine ⟨h1, h2, h3, h4, fun hn => ?_⟩
  have : ¬ mandelbrot_test c < MAX_TESTS := fun hlt => hn (h3.mp hlt)
  omega

/-! ### Colour mapper of the old variants -/

/-- The denominator `log2(MAX_TESTS - 1)` of the old variants is positive. -/
theorem old_logb_budget_pos : 0 < Real.logb 2 ((Old.MAX_TESTS - 1 : ℕ) : ℝ) := by
  apply Real.logb_pos (by norm_num)
  norm_num [Old.MAX_TESTS]

/-- The brightness expression of `src/old/mandelbrot.c` at 999 iterations is
256. -/
theorem old_brightness_expr_last : Old.brightness_expr 999 = 256 := by
  have hpos := old_logb_budget_pos
  unfold Old.brightness_expr
  have h : ((999 : ℤ) : ℝ) = ((Old.MAX_TESTS - 1 : ℕ) : ℝ) := by norm_num [Old.MAX_TESTS]
  rw [h, mul_div_assoc, div_self hpos.ne', mul_one]

/-- The brightness expression of `src/old/mandelbrot_parallel.c` is the one of
`src/old/mandelbrot.c`. -/
theorem old_parallel_brightness_expr_eq (n : ℤ) :
    OldParallel.brightness_expr n = Old.brightness_expr n := rfl

/-- Below 999 iterations the truncated brightness of the old variants lies
in `0 .. 255`. -/
theorem old_trunc_brightness_range (n : ℤ) (h1 : 1 ≤ n) (h2 : n ≤ 998) :
    0 ≤ trunc (Old.brightness_expr n) ∧ trunc (Old.brightness_expr n) ≤ 255 := by
  have hpos := old_logb_budget_pos
  have hn0 : (0 : ℝ) < (n : ℝ) := by exact_mod_cast (by omega : 0 < n)
  have hn1 : (1 : ℝ) ≤ (n : ℝ) := by exact_mod_cast h1
  have hlog0 : 0 ≤ Real.logb 2 (n : ℝ) := Real.logb_nonneg (by norm_num) hn1
  have hlt : Real.logb 2 (n : ℝ) < Real.logb 2 ((Old.MAX_TESTS - 1 : ℕ) : ℝ) := by
    apply Real.logb_lt_logb (by norm_num) hn0
    have : (n : ℝ) ≤ 998 := by exact_mod_cast h2
    norm_num [Old.MAX_TESTS]
    linarith
  have h0 : 0 ≤ Old.brightness_expr n := by
    unfold Old.brightness_expr
    exact div_nonneg (mul_nonneg (by norm_num) hlog0) hpos.le
  have h256 : Old.brightness_expr n < 256 := by
    unfold Old.brightness_expr
    rw [div_lt_iff₀ hpos]
    exact mul_lt_mul_of_pos_left hlt (by norm_num)
  unfold trunc
  rw [if_pos h0]
  constructor
  · exact Int.floor_nonneg.mpr h0
  · have : ⌊Old.brightness_expr n⌋ < 256 := by
      rw [Int.floor_lt]
      exact_mod_cast h256
    omega

/-- C16 fails on the code: at `n = 999` the brightness of both old variants
is `256 * log2(999) / log2(999) = 256`, outside `0 .. 255`, and the
`unsigned char` red and green channels receive `256 mod 256 = 0`. -/
theorem old_rgb_gen_brightest_wraps :
    trunc (Old.brightness_expr 999) = 256 ∧
    Old.rgb_gen 999 = ⟨0, 0, 255⟩ ∧
    trunc (OldParallel.brightness_expr 999) = 256 ∧
    OldParallel.rgb_gen 999 = ⟨0, 0, 255⟩ := by
  have ht : trunc (Old.brightness_expr 999) = 256 := by
    rw [old_brightness_expr_last]
    unfold trunc
    rw [if_pos (by norm_num)]
    exact Int.floor_ofNat 256
  have ht2 : trunc (OldParallel.brightness_expr 999) = 256 := by
    rw [old_parallel_brightness_expr_eq]; exact ht
  refine ⟨ht, ?_, ht2, ?_⟩
  · unfold Old.rgb_gen
    rw [if_neg (by norm_num [Old.MAX_TESTS]), ht]
    rfl
  · unfold OldParallel.rgb_gen
    rw [if_neg (by norm_num [OldParallel.MAX_TESTS]), ht2]
    rfl

/-! ### The colour mapper in double arithmetic -/

/-- In exact arithmetic `rgb_gen_double` is `rgb_gen`. -/
theorem rgb_gen_double_exact (n : ℤ) : rgb_gen_double exact_arith n = rgb_gen n := rfl

/-- Exact arithmetic is accurate. -/
theorem exact_arith_accurate : exact_arith.accurate := by
  refine ⟨rfl, fun x _ _ => ?_, fun n h1 _ => ?_⟩
  · simp only [exact_arith, sub_self, abs_zero]
    positivity
  · have hn : (1 : ℝ) ≤ (n : ℝ) := by exact_mod_cast h1
    have h0 : 0 ≤ Real.logb 2 (n : ℝ) := Real.logb_nonneg (by norm_num) hn
    simp only [exact_arith, sub_self, abs_zero]
    positivity

/-- Bounds on `log2` of the integers `2 .. 1999`. -/
theorem logb_two_range (n : ℤ) (h1 : 2 ≤ n) (h2 : n ≤ 1999) :
    1 ≤ Real.logb 2 (n : ℝ) ∧ Real.logb 2 (n : ℝ) ≤ Real.logb 2 ((1999 : ℤ) : ℝ) ∧
      Real.logb 2 ((1999 : ℤ) : ℝ) ≤ 11 := by
  have hn0 : (0 : ℝ) < (n : ℝ) := by exact_mod_cast (by omega : 0 < n)
  have hn2 : (2 : ℝ) ≤ (n : ℝ) := by exact_mod_cast h1
  have hn3 : (n : ℝ) ≤ ((1999 : ℤ) : ℝ) := by exact_mod_cast h2
  refine ⟨?_, Real.logb_le_logb_of_le (by norm_num) hn0 hn3, ?_⟩
  · have := Real.logb_le_logb_of_le (by norm_num : (1 : ℝ) < 2) (by norm_num) hn2
    rwa [Real.logb_self_eq_one (by norm_num)] at this
  · have h : Real.logb 2 ((1999 : ℤ) : ℝ) ≤ Real.logb 2 ((2 : ℝ) ^ (11 : ℕ)) :=
      Real.logb_le_logb_of_le (by norm_num) (by norm_num) (by norm_num)
    rw [Real.logb_pow, Real.logb_self_eq_one (by norm_num)] at h
    simpa using h

/-- The double value of the brightness expression is non-negative and within
`2 ^ -30` of the exact quotient, in every accurate double arithmetic. -/
theorem brightness_double_near (A : double_arith) (hA : A.accurate) (n : ℤ) (h1 : 1 ≤ n)
    (h2 : n ≤ 1999) :
    0 ≤ brightness_double A n ∧ |brightness_double A n - brightness_expr n| ≤ 1 / 2 ^ 30 := by
  obtain ⟨hz, hr, hl⟩ := hA
  have hcast : ((MAX_TESTS - 1 : ℕ) : ℝ) = ((1999 : ℤ) : ℝ) := by norm_num [MAX_TESTS]
  have hU : (USHORT_MAX : ℝ) = 65535 := by norm_num [USHORT_MAX]
  unfold brightness_double brightness_expr
  rw [hcast, hU]
  have hln := hl n h1 h2
  have hLℓ := hl 1999 (by norm_num) le_rfl
  rcases eq_or_lt_of_le h1 with h11 | h12
  · -- one iteration: every intermediate value is zero
    subst h11
    have e0 : Real.logb 2 ((1 : ℤ) : ℝ) = 0 := by simp
    rw [e0] at hln ⊢
    have hl0 : A.log2 ((1 : ℤ) : ℝ) = 0 := by
      have : |A.log2 ((1 : ℤ) : ℝ) - 0| ≤ 0 := by simpa using hln
      have := abs_nonpos_iff.mp this
      linarith
    rw [hl0]
    simp [hz]
  · obtain ⟨hℓn1, hℓnℓ, hℓ11⟩ := logb_two_range n (by omega) h2
    set ℓn := Real.logb 2 (n : ℝ) with hℓn
    set ℓ := Real.logb 2 ((1999 : ℤ) : ℝ) with hℓ
    set l := A.log2 (n : ℝ) with hldef
    set L := A.log2 ((1999 : ℤ) : ℝ) with hLdef
    have hℓpos : 0 < ℓ := by linarith
    rw [abs_le] at hln hLℓ
    -- the rounded product
    have hP1 : 1 ≤ 65535 * l := by linarith [hln.1]
    have hP2 : 65535 * l ≤ 2 ^ 20 := by linarith [hln.2]
    have hPpos : 0 < 65535 * l := by linarith
    have hp := hr (65535 * l) (by rw [abs_of_pos hPpos]; exact hP1)
      (by rw [abs_of_pos hPpos]; exact hP2)
    rw [abs_of_pos hPpos, abs_le] at hp
    set p := A.round (65535 * l) with hpdef
    have hLpos : 0 < L := by linarith [hLℓ.1]
    -- the rounded quotient
    have hQ1 : 1 ≤ p / L := by
      rw [le_div_iff₀ hLpos]
      linarith [hp.1, hln.1, hLℓ.2]
    have hQ2 : p / L ≤ 2 ^ 20 := by
      rw [div_le_iff₀ hLpos]
      linarith [hp.2, hln.2, hLℓ.1]
    have hQpos : 0 < p / L := by linarith
    have hb := hr (p / L) (by rw [abs_of_pos hQpos]; exact hQ1)
      (by rw [abs_of_pos hQpos]; exact hQ2)
    rw [abs_of_pos hQpos, abs_le] at hb
    set b := A.round (p / L) with hbdef
    -- comparison with the exact quotient
    set E := 65535 * ℓn / ℓ with hE
    have hEℓ : E * ℓ = 65535 * ℓn := by rw [hE]; field_simp
    have hE0 : 0 ≤ E := by rw [hE]; positivity
    have hE1 : E ≤ 65535 := by
      rw [hE, div_le_iff₀ hℓpos]
      linarith
    have hl_u : l ≤ ℓn * (1 + 1 / 2 ^ 52) := by linarith [hln.2]
    have hl_l : ℓn * (1 - 1 / 2 ^ 52) ≤ l := by linarith [hln.1]
    have hp_u : p ≤ 65535 * l * (1 + 1 / 2 ^ 53) := by linarith [hp.2]
    have hp_l : 65535 * l * (1 - 1 / 2 ^ 53) ≤ p := by linarith [hp.1]
    have hEℓ0 : 0 ≤ E * ℓ := by positivity
    have hQu : p / L ≤ E * (1 + 1 / 2 ^ 50) := by
      rw [div_le_iff₀ hLpos]
      have h3 : p ≤ E * ℓ * ((1 + 1 / 2 ^ 52) * (1 + 1 / 2 ^ 53)) := by
        rw [hEℓ]
        calc p ≤ 65535 * l * (1 + 1 / 2 ^ 53) := hp_u
          _ ≤ 65535 * (ℓn * (1 + 1 / 2 ^ 52)) * (1 + 1 / 2 ^ 53) :=
            mul_le_mul_of_nonneg_right (mul_le_mul_of_nonneg_left hl_u (by norm_num))
              (by norm_num)
          _ = 65535 * ℓn * ((1 + 1 / 2 ^ 52) * (1 + 1 / 2 ^ 53)) := by ring
      have h4 : E * ℓ * ((1 + 1 / 2 ^ 52) * (1 + 1 / 2 ^ 53)) ≤
          E * ℓ * ((1 + 1 / 2 ^ 50) * (1 - 1 / 2 ^ 52)) :=
        mul_le_mul_of_nonneg_left (by norm_num) hEℓ0
      have h5 : E * (1 + 1 / 2 ^ 50) * (ℓ * (1 - 1 / 2 ^ 52)) ≤ E * (1 + 1 / 2 ^ 50) * L :=
        mul_le_mul_of_nonneg_left (by linarith [hLℓ.1]) (by positivity)
      calc p ≤ E * ℓ * ((1 + 1 / 2 ^ 52) * (1 + 1 / 2 ^ 53)) := h3
        _ ≤ E * ℓ * ((1 + 1 / 2 ^ 50) * (1 - 1 / 2 ^ 52)) := h4
        _ = E * (1 + 1 / 2 ^ 50) * (ℓ * (1 - 1 / 2 ^ 52)) := by ring
        _ ≤ E * (1 + 1 / 2 ^ 50) * L := h5
    have hQl : E * (1 - 1 / 2 ^ 50) ≤ p / L := by
      rw [le_div_iff₀ hLpos]
      have h3 : E * ℓ * ((1 - 1 / 2 ^ 52) * (1 - 1 / 2 ^ 53)) ≤ p := by
        rw [hEℓ]
        calc 65535 * ℓn * ((1 - 1 / 2 ^ 52) * (1 - 1 / 2 ^ 53))
            = 65535 * (ℓn * (1 - 1 / 2 ^ 52)) * (1 - 1 / 2 ^ 53) := by ring
          _ ≤ 65535 * l * (1 - 1 / 2 ^ 53) :=
            mul_le_mul_of_nonneg_right (mul_le_mul_of_nonneg_left hl_l (by norm_num))
              (by norm_num)
          _ ≤ p := hp_l
      have h4 : E * ℓ * ((1 - 1 / 2 ^ 50) * (1 + 1 / 2 ^ 52)) ≤
          E * ℓ * ((1 - 1 / 2 ^ 52) * (1 - 1 / 2 ^ 53)) :=
        mul_le_mul_of_nonneg_left (by norm_num) hEℓ0
      have h5 : E * (1 - 1 / 2 ^ 50) * L ≤ E * (1 - 1 / 2 ^ 50) * (ℓ * (1 + 1 / 2 ^ 52)) :=
        mul_le_mul_of_nonneg_left (by linarith [hLℓ.2])
          (mul_nonneg hE0 (by norm_num))
      calc E * (1 - 1 / 2 ^ 50) * L ≤ E * (1 - 1 / 2 ^ 50) * (ℓ * (1 + 1 / 2 ^ 52)) := h5
        _ = E * ℓ * ((1 - 1 / 2 ^ 50) * (1 + 1 / 2 ^ 52)) := by ring
        _ ≤ E * ℓ * ((1 - 1 / 2 ^ 52) * (1 - 1 / 2 ^ 53)) := h4
        _ ≤ p := h3
    have hb_u : b ≤ p / L * (1 + 1 / 2 ^ 53) := by linarith [hb.2]
    have hb_l : p / L * (1 - 1 / 2 ^ 53) ≤ b := by linarith [hb.1]
    have hb_u2 : b ≤ E * (1 + 1 / 2 ^ 50) * (1 + 1 / 2 ^ 53) :=
      le_trans hb_u (mul_le_mul_of_nonneg_right hQu (by norm_num))
    have hb_l2 : E * (1 - 1 / 2 ^ 50) * (1 - 1 / 2 ^ 53) ≤ b :=
      le_trans (mul_le_mul_of_nonneg_right hQl (by norm_num)) hb_l
    have hcu : E * ((1 + 1 / 2 ^ 50) * (1 + 1 / 2 ^ 53) - 1) ≤
        65535 * ((1 + 1 / 2 ^ 50) * (1 + 1 / 2 ^ 53) - 1) :=
      mul_le_mul_of_nonneg_right hE1 (by norm_num)
    have hcl : E * (1 - (1 - 1 / 2 ^ 50) * (1 - 1 / 2 ^ 53)) ≤
        65535 * (1 - (1 - 1 / 2 ^ 50) * (1 - 1 / 2 ^ 53)) :=
      mul_le_mul_of_nonneg_right hE1 (by norm_num)
    have hnu : (65535 : ℝ) * ((1 + 1 / 2 ^ 50) * (1 + 1 / 2 ^ 53) - 1) ≤ 1 / 2 ^ 30 := by
      norm_num
    have hnl : (65535 : ℝ) * (1 - (1 - 1 / 2 ^ 50) * (1 - 1 / 2 ^ 53)) ≤ 1 / 2 ^ 30 := by
      norm_num
    refine ⟨by linarith [hb.1], ?_⟩
    rw [abs_le]
    constructor
    · linarith
    · linarith

/-- The exact brightness expression written out. -/
theorem brightness_expr_eq (n : ℤ) :
    brightness_expr n = 65535 * Real.logb 2 (n : ℝ) / Real.logb 2 1999 := by
  unfold brightness_expr
  norm_num [USHORT_MAX, MAX_TESTS]

/-- Rational bounds on `log2(1999)`. -/
theorem logb_1999_bounds :
    (625 : ℝ) / 57 < Real.logb 2 1999 ∧ Real.logb 2 1999 < (2511 : ℝ) / 229 := by
  have hlog2 : 0 < Real.log 2 := Real.log_pos (by norm_num)
  have h1 : Real.log ((2 : ℝ) ^ 625) < Real.log ((1999 : ℝ) ^ 57) :=
    Real.log_lt_log (by positivity) (by norm_num)
  have h2 : Real.log ((1999 : ℝ) ^ 229) < Real.log ((2 : ℝ) ^ 2511) :=
    Real.log_lt_log (by positivity) (by norm_num)
  rw [Real.log_pow, Real.log_pow] at h1 h2
  push_cast at h1 h2
  unfold Real.logb
  constructor
  · rw [lt_div_iff₀ hlog2]
    linarith
  · rw [div_lt_iff₀ hlog2]
    linarith

/-- The value stored at 1024 iterations, in every accurate double arithmetic:
the brightness is between 59767 and 59768, the `short` intermediate holds the
negative value `59767 - 65536`, and the channels receive 59767. -/
theorem rgb_gen_double_at_1024 (A : double_arith) (hA : A.accurate) :
    trunc (brightness_double A 1024) = 59767 ∧
    to_short (trunc (brightness_double A 1024)) = -5769 ∧
    rgb_gen_double A 1024 = ⟨59767, 59767, 65535⟩ := by
  obtain ⟨h0, hnear⟩ := brightness_double_near A hA 1024 (by norm_num) (by norm_num)
  obtain ⟨hlo, hhi⟩ := logb_1999_bounds
  have hℓpos : (0 : ℝ) < Real.logb 2 1999 := by linarith
  have h10 : Real.logb 2 ((1024 : ℤ) : ℝ) = 10 := by
    have : ((1024 : ℤ) : ℝ) = (2 : ℝ) ^ (10 : ℕ) := by norm_num
    rw [this, Real.logb_pow, Real.logb_self_eq_one (by norm_num)]
    norm_num
  rw [brightness_expr_eq, h10, abs_le] at hnear
  have hE1 : (59767 : ℝ) + 1 / 2 ^ 30 ≤ 65535 * 10 / Real.logb 2 1999 := by
    rw [le_div_iff₀ hℓpos]
    have : ((59767 : ℝ) + 1 / 2 ^ 30) * (2511 / 229) ≤ 65535 * 10 := by norm_num
    nlinarith
  have hE2 : 65535 * 10 / Real.logb 2 1999 ≤ (59768 : ℝ) - 1 / 2 ^ 29 := by
    rw [div_le_iff₀ hℓpos]
    have : (65535 : ℝ) * 10 ≤ ((59768 : ℝ) - 1 / 2 ^ 29) * (625 / 57) := by norm_num
    nlinarith
  have hb1 : (59767 : ℝ) ≤ brightness_double A 1024 := by linarith [hnear.1]
  have hb2 : brightness_double A 1024 < 59768 := by
    have : (1 : ℝ) / 2 ^ 30 < 1 / 2 ^ 29 := by norm_num
    linarith [hnear.2]
  have ht : trunc (brightness_double A 1024) = 59767 := by
    unfold trunc
    rw [if_pos h0, Int.floor_eq_iff]
    constructor
    · exact_mod_cast hb1
    · have : ((59767 : ℤ) : ℝ) + 1 = 59768 := by norm_num
      rw [this]
      exact hb2
  refine ⟨ht, by rw [ht]; rfl, ?_⟩
  unfold rgb_gen_double
  rw [if_pos (by norm_num [MAX_TESTS]), ht]
  rfl

/-! ### The double brightness at `MAX_TESTS - 1` iterations -/

/-- Decimal bounds on the natural logarithm of 2, from 60 terms of the
series of `log (1 - x)` at `x = 1/2`. -/
theorem log_two_decimal_bounds :
    (6931471805599453 : ℝ) / 10 ^ 16 ≤ Real.log 2 ∧
      Real.log 2 ≤ (6931471805599454 : ℝ) / 10 ^ 16 := by
  have h := Real.abs_log_sub_add_sum_range_le (show |(1 / 2 : ℝ)| < 1 by
    rw [abs_of_pos (by norm_num)]; norm_num) 60
  have e : Real.log (1 - 1 / 2) = -Real.log 2 := by
    rw [show (1 - 1 / 2 : ℝ) = 2⁻¹ by norm_num, Real.log_inv]
  rw [e, abs_of_pos (by norm_num : (0 : ℝ) < 1 / 2), abs_le] at h
  simp only [Finset.sum_range_succ, Finset.sum_range_zero] at h
  norm_num at h
  constructor
  · linarith [h.2]
  · linarith [h.1]

/-- Decimal bounds on `-log (1 - 49/2048)`, from 10 terms of the series. -/
theorem log_ratio_decimal_bounds :
    (242166516589983 : ℝ) / 10 ^ 16 ≤ -Real.log (1 - 49 / 2048) ∧
      -Real.log (1 - 49 / 2048) ≤ (242166516589984 : ℝ) / 10 ^ 16 := by
  have h := Real.abs_log_sub_add_sum_range_le (show |(49 / 2048 : ℝ)| < 1 by
    rw [abs_of_pos (by norm_num)]; norm_num) 10
  rw [abs_of_pos (by norm_num : (0 : ℝ) < 49 / 2048), abs_le] at h
  simp only [Finset.sum_range_succ, Finset.sum_range_zero] at h
  norm_num at h
  constructor
  · linarith [h.2]
  · linarith [h.1]

/-- A real strictly within one half of an integer rounds to that integer. -/
theorem round_half_even_eq (y : ℝ) (k : ℤ) (h1 : (k : ℝ) - 1 / 2 < y)
    (h2 : y < (k : ℝ) + 1 / 2) : round_half_even y = k := by
  have hf0 : (⌊y⌋ : ℝ) ≤ y := Int.floor_le y
  have hf1 : y < (⌊y⌋ : ℝ) + 1 := Int.lt_floor_add_one y
  rcases le_or_lt (k : ℝ) y with hk | hk
  · have hfl : ⌊y⌋ = k := by
      rw [Int.floor_eq_iff]
      exact ⟨hk, by linarith⟩
    unfold round_half_even
    rw [hfl, if_pos (by linarith)]
  · have hfl : ⌊y⌋ = k - 1 := by
      rw [Int.floor_eq_iff]
      push_cast
      exact ⟨by linarith, by linarith⟩
    unfold round_half_even
    rw [hfl]
    push_cast
    rw [if_neg (by linarith), if_pos (by linarith)]
    ring

/-- The double nearest to a positive real `x` with `2 ^ e ≤ x < 2 ^ (e + 1)`
that lies strictly within half a unit in the last place of `k * q`, where
`q = 2 ^ (e - 52)` is the unit in the last place. -/
theorem round_double_eq (x q : ℝ) (e k : ℤ) (hq : q = (2 : ℝ) ^ (e - 52)) (hx : 0 < x)
    (h1 : (2 : ℝ) ^ e ≤ x) (h2 : x < (2 : ℝ) ^ (e + 1))
    (hk1 : ((k : ℝ) - 1 / 2) * q < x) (hk2 : x < ((k : ℝ) + 1 / 2) * q) :
    round_double x = (k : ℝ) * q := by
  have hlog : Int.log 2 |x| = e := by
    rw [abs_of_pos hx]
    apply le_antisymm
    · have : Int.log 2 x < e + 1 := by
        rw [← Int.lt_zpow_iff_log_lt (by norm_num) hx]
        exact_mod_cast h2
      omega
    · rw [← Int.zpow_le_iff_le_log (by norm_num) hx]
      exact_mod_cast h1
  have hqpos : 0 < q := by rw [hq]; exact zpow_pos (by norm_num) _
  unfold round_double
  rw [if_neg hx.ne', hlog, ← hq, round_half_even_eq (x / q) k]
  · rw [lt_div_iff₀ hqpos]; exact hk1
  · rw [div_lt_iff₀ hqpos]; exact hk2


/-- Tight bounds on `log2(1999)`: it lies strictly within half a unit in the
last place of the double `6172781568171151 / 2 ^ 49`. -/
theorem logb_1999_near_double :
    ((6172781568171151 : ℝ) - 1 / 2) * (1 / 2 ^ 49) < Real.logb 2 1999 ∧
      Real.logb 2 1999 < ((6172781568171151 : ℝ) + 1 / 2) * (1 / 2 ^ 49) := by
  obtain ⟨t1, t2⟩ := log_two_decimal_bounds
  obtain ⟨y1, y2⟩ := log_ratio_decimal_bounds
  have hlog2 : 0 < Real.log 2 := Real.log_pos (by norm_num)
  have h1999 : Real.log 1999 = 11 * Real.log 2 + Real.log (1 - 49 / 2048) := by
    have : (1999 : ℝ) = 2 ^ (11 : ℕ) * (1 - 49 / 2048) := by norm_num
    rw [this, Real.log_mul (by norm_num) (by norm_num), Real.log_pow]
    norm_num
  unfold Real.logb
  rw [h1999]
  constructor
  · rw [lt_div_iff₀ hlog2]
    nlinarith
  · rw [div_lt_iff₀ hlog2]
    nlinarith

/-- The correctly rounded `log2(1999.0)`. -/
theorem ieee_log2_1999 :
    round_double (Real.logb 2 1999) = 6172781568171151 / 2 ^ 49 := by
  obtain ⟨h1, h2⟩ := logb_1999_near_double
  have hb := logb_1999_bounds
  have := round_double_eq (Real.logb 2 1999) (1 / 2 ^ 49) 3 6172781568171151
    (by norm_num) (by linarith [hb.1]) (by norm_num; linarith [hb.1])
    (by norm_num; linarith [hb.2]) (by exact_mod_cast h1) (by exact_mod_cast h2)
  rw [this]
  norm_num

/-- The double product `65535 * log2(1999.0)`. -/
theorem ieee_product_1999 :
    round_double (65535 * (6172781568171151 / 2 ^ 49)) = 6172687378999273 / 2 ^ 33 := by
  have := round_double_eq (65535 * (6172781568171151 / 2 ^ 49)) (1 / 2 ^ 33) 19
    6172687378999273 (by norm_num) (by norm_num) (by norm_num) (by norm_num)
    (by norm_num) (by norm_num)
  rw [this]
  norm_num

/-- The double quotient `(65535 * log2(1999.0)) / log2(1999.0)`: one unit in
the last place below 65535. -/
theorem ieee_quotient_1999 :
    round_double (6172687378999273 / 2 ^ 33 / (6172781568171151 / 2 ^ 49)) =
      9007061815787519 / 2 ^ 37 := by
  have := round_double_eq (6172687378999273 / 2 ^ 33 / (6172781568171151 / 2 ^ 49))
    (1 / 2 ^ 37) 15 9007061815787519 (by norm_num) (by norm_num) (by norm_num) (by norm_num)
    (by norm_num) (by norm_num)
  rw [this]
  norm_num

/-- In IEEE 754 double arithmetic the brightness at `MAX_TESTS - 1 = 1999`
iterations is `65535 - 2 ^ -37` and `rgb_gen` stores 65534, one less than
the truncation 65535 of the exact quotient. -/
theorem rgb_gen_double_ieee_last :
    brightness_double ieee_arith 1999 = 65535 - 1 / 2 ^ 37 ∧
    rgb_gen_double ieee_arith 1999 = ⟨65534, 65534, 65535⟩ ∧
    trunc (brightness_expr 1999) = 65535 := by
  have hexact : trunc (brightness_expr 1999) = 65535 := by
    rw [brightness_expr_last]
    unfold trunc
    rw [if_pos (by norm_num)]
    exact Int.floor_ofNat 65535
  have hb : brightness_double ieee_arith 1999 = 65535 - 1 / 2 ^ 37 := by
    unfold brightness_double ieee_arith
    simp only
    have e1 : ((1999 : ℤ) : ℝ) = 1999 := by norm_num
    have e2 : ((MAX_TESTS - 1 : ℕ) : ℝ) = 1999 := by norm_num [MAX_TESTS]
    have e3 : (USHORT_MAX : ℝ) = 65535 := by norm_num [USHORT_MAX]
    rw [e1, e2, e3, ieee_log2_1999, ieee_product_1999, ieee_quotient_1999]
    norm_num
  have ht : trunc (brightness_double ieee_arith 1999) = 65534 := by
    rw [hb]
    unfold trunc
    rw [if_pos (by norm_num), Int.floor_eq_iff]
    constructor <;> norm_num
  refine ⟨hb, ?_, hexact⟩
  unfold rgb_gen_double
  rw [if_pos (by norm_num [MAX_TESTS]), ht]
  rfl


end Mandelbrot
